import Mathlib

/-!
Verification development for the chart-DSL configuration compilation and
data-resolution pipeline (`chart-dsl`): shallow Lean embeddings of the
schema resolver (`src/resolver/resolver.ts`), the JSONPath mapper
(`src/data-provider/mapper.ts`), the LRU / TTL caches
(`src/data-provider/cache.ts`), the DSL lexer (`src/parser/lexer.ts`) and
the REST data provider's retry / configuration logic
(`src/data-provider/rest.ts`), together with theorems settling the spec's
testable properties against them.

Modelling conventions:
* JavaScript objects are insertion-ordered association lists
  `List (String × Value)`; property assignment (`obj[k] = v`) replaces the
  value in place when the key exists and appends otherwise, matching JS
  object semantics (real JS objects never hold duplicate keys).
* JS `undefined` is `Option.none`; JS `null` is the explicit `Value.null`.
* Function-valued properties (compiled interpolation callbacks) are outside
  the modelled value domain: the claims under study never exercise the
  `typeof value === 'function'` branch of `processSchema`, which is
  therefore vacuous here.
* `Map` objects are insertion-ordered association lists as well; `Map.get`
  is first-match lookup, `Map.delete` removes the (unique) matching entry,
  re-insertion appends at the end.
-/

/-- JSON-like values as manipulated by the resolver, mapper and caches.
`funcall` models the deferred function-call literal
`{type: 'function', name, args}` produced by the parser for `rest("...")`
style sources. -/
inductive Value where
  | str (s : String)
  | num (n : Int)
  | bool (b : Bool)
  | null
  | arr (xs : List Value)
  | obj (fields : List (String × Value))
  | funcall (name : String) (args : List Value)

abbrev Fields := List (String × Value)

/-- First-match association-list lookup (JS property read / `Map.get`). -/
def lookupKey : Fields → String → Option Value
  | [], _ => none
  | (k', v) :: rest, k => if k' = k then some v else lookupKey rest k

/-- JS property assignment `obj[k] = v`: when the key is present the value is
replaced in place (keeping the key's position in the insertion order),
otherwise the pair is appended at the end. -/
def setKey : Fields → String → Value → Fields
  | [], k, v => [(k, v)]
  | (k', w) :: rest, k, v =>
    if k' = k then (k, v) :: rest else (k', w) :: setKey rest k v

/-- JS `s.startsWith(pre)`, decided over the character lists. -/
def charsPrefix : List Char → List Char → Bool
  | [], _ => true
  | _ :: _, [] => false
  | a :: as, b :: bs => a = b && charsPrefix as bs

/-- JS `String.prototype.startsWith`. -/
def jsStartsWith (s pre : String) : Bool :=
  charsPrefix pre.toList s.toList

/-- `Map.get`. -/
def mapGet {K V : Type} [DecidableEq K] : List (K × V) → K → Option V
  | [], _ => none
  | (k', v) :: rest, k => if k' = k then some v else mapGet rest k

/-- `Map.delete`: removes the (unique) entry with the given key. -/
def mapDelete {K V : Type} [DecidableEq K] : List (K × V) → K → List (K × V)
  | [], _ => []
  | (k', v) :: rest, k => if k' = k then rest else (k', v) :: mapDelete rest k

/-! ### Schema resolver (`src/resolver/resolver.ts`)

The `Resolver` holds a registry (`Map<string, schema>`) and a variable map;
both are passed explicitly here. `Object.entries` of a JS object yields each
key exactly once, so loops of the shape `out[key] = f(value)` over a fresh
`out` are modelled by a direct structural map/cons over the entry list. -/

/-- `ResolutionError` (`src/types/resolver.ts`). -/
structure ResolutionError where
  message : String
  code : String
  schemaName : Option String := none
  property : Option String := none
  deriving DecidableEq, Repr

/-- `ResolvedConfig` (`src/types/resolver.ts`). -/
structure ResolvedConfig where
  config : Fields
  dependencies : List String
  errors : List ResolutionError

/-- JS truthiness of a schema value (`if (schema.extends)`). -/
def valueTruthy : Value → Bool
  | .str s => s ≠ ""
  | .num n => n ≠ 0
  | .bool b => b
  | .null => false
  | .arr _ => true
  | .obj _ => true
  | .funcall _ _ => true

/-- Best-effort JS string coercion, used only inside error messages. -/
def jsDisplay : Value → String
  | .str s => s
  | .num n => toString n
  | .bool b => if b then "true" else "false"
  | .null => "null"
  | .arr _ => ""
  | .obj _ => "[object Object]"
  | .funcall _ _ => "[object Object]"

/-- The per-entry transformation of `Resolver.processSchema`: `extends` and
`map` are copied verbatim; a deferred function-call literal under `source`
named `rest` with at least one argument collapses to its first argument;
everything else is copied (the `typeof value === 'function'` branch is
vacuous in this value domain). -/
def processEntry (k : String) (v : Value) : Value :=
  if k = "extends" ∨ k = "map" then v
  else if k = "source" then
    match v with
    | .funcall name args =>
      if name = "rest" then
        match args with
        | a :: _ => a
        | [] => .funcall name args
      else .funcall name args
    | _ => v
  else v

/-- `Resolver.processSchema`: builds the config from the schema's own
entries. -/
def processSchema (schema : Fields) : Fields :=
  schema.map (fun p => (p.1, processEntry p.1 p.2))

mutual
/-- Structural size of a value (fuel for the nested-recursive walks). -/
def valueSize : Value → Nat
  | .str _ => 1
  | .num _ => 1
  | .bool _ => 1
  | .null => 1
  | .arr xs => 1 + valueListSize xs
  | .obj f => 1 + fieldsSize f
  | .funcall _ args => 1 + valueListSize args

/-- Structural size of a value list. -/
def valueListSize : List Value → Nat
  | [] => 0
  | v :: rest => 1 + valueSize v + valueListSize rest

/-- Structural size of a field list. -/
def fieldsSize : Fields → Nat
  | [] => 0
  | (_, v) :: rest => 1 + valueSize v + fieldsSize rest
end

mutual
/-- `Resolver.deepMerge` over an explicit structural fuel (`fieldsSize` of
the source suffices; `deepMergeF_congr` shows the result does not depend on
the fuel once it is large enough, and `deepMerge` below supplies it). Source
entries are assigned over the target in order; when both sides hold plain
(non-array, non-null) objects the two are merged recursively, otherwise
the source value overwrites. -/
def deepMergeF : Nat → Fields → Fields → Fields
  | 0, target, _ => target
  | _ + 1, target, [] => target
  | fuel + 1, target, (k, v) :: rest =>
    deepMergeF fuel (setKey target k (mergeValF fuel (lookupKey target k) v)) rest

/-- One assignment step of `deepMergeF`: the `typeof`/`Array.isArray` guard —
objects on both sides merge recursively, anything else is overwritten.
Modelling boundary: a function-call literal is kept in constructor form and
treated as overwriting here, whereas in JS it is a plain object that would
merge key-by-key with an object on the other side; every deep-merge theorem
below hypothesizes plain values (no function-call literals), where the two
readings coincide. -/
def mergeValF (fuel : Nat) : Option Value → Value → Value
  | some (.obj tf), .obj vf => .obj (deepMergeF fuel tf vf)
  | _, v => v
end

/-- `Resolver.deepMerge`. -/
def deepMerge (target source : Fields) : Fields :=
  deepMergeF (fieldsSize source + 1) target source

/-- The value `deepMerge` assigns at one key, given the target's current
value there: objects on both sides merge recursively, anything else is
overwritten by the source value. -/
def mergeVal : Option Value → Value → Value
  | some (.obj tf), .obj vf => .obj (deepMerge tf vf)
  | _, v => v

/-- `Resolver.resolveVariables` over an explicit structural fuel (again
`fieldsSize` suffices and the result is fuel-independent beyond that). The
`map` sub-object is copied verbatim (recursed with `skipJsonPath = true`,
which suppresses all substitution); strings starting with `"$."` are JSON
paths and are left untouched; other strings starting with `"$"` are looked
up in the variable map — found values replace the string, missing ones
stay literal and record a `VARIABLE_NOT_FOUND` error; non-null non-array
objects are recursed into. A function-call literal is such an object in JS
(`{type: 'function', name, args}`), so the code recurses into it as well:
its `type` entry (the string `"function"`) and its `args` entry (an array)
are copied, while the `name` string undergoes the same `$`-substitution
with the property recorded as `"name"`; when the substituted variable
value is not a string the result object is no longer a function-call
literal and is rendered in its explicit object form. All other values
(arrays included) are copied verbatim. -/
def resolveVarsF (vars : List (String × Value)) :
    Nat → Bool → Fields → Fields × List ResolutionError
  | 0, _, _ => ([], [])
  | _ + 1, _, [] => ([], [])
  | fuel + 1, skip, (k, v) :: rest =>
    let head : Value × List ResolutionError :=
      if k = "map" then
        match v with
        | .obj mf =>
          let r := resolveVarsF vars fuel true mf
          (.obj r.1, r.2)
        | _ => (v, [])
      else if skip then (v, [])
      else
        match v with
        | .str s =>
          if jsStartsWith s "$." then (.str s, [])
          else if jsStartsWith s "$" then
            match mapGet vars (s.drop 1) with
            | some w => (w, [])
            | none =>
              (.str s,
                [⟨"Variable \"" ++ s ++ "\" not found", "VARIABLE_NOT_FOUND",
                  none, some k⟩])
          else (.str s, [])
        | .obj f =>
          let r := resolveVarsF vars fuel false f
          (.obj r.1, r.2)
        | .funcall nm args =>
          if jsStartsWith nm "$." then (.funcall nm args, [])
          else if jsStartsWith nm "$" then
            match mapGet vars (nm.drop 1) with
            | some (.str s') => (.funcall s' args, [])
            | some w =>
              (.obj [("type", .str "function"), ("name", w),
                ("args", .arr args)], [])
            | none =>
              (.funcall nm args,
                [⟨"Variable \"" ++ nm ++ "\" not found", "VARIABLE_NOT_FOUND",
                  none, some "name"⟩])
          else (.funcall nm args, [])
        | _ => (v, [])
    let tail := resolveVarsF vars fuel skip rest
    ((k, head.1) :: tail.1, head.2 ++ tail.2)

/-- `Resolver.resolveVariables`. -/
def resolveVars (vars : List (String × Value)) (skip : Bool)
    (fields : Fields) : Fields × List ResolutionError :=
  resolveVarsF vars (fieldsSize fields + 1) skip fields

/-- The value and errors `resolveVariables` produces for a single entry
(stated via the fuel-free wrapper; `resolveVars_cons` below shows the loop
processes entries one at a time with this head function). -/
def resolveVarHead (vars : List (String × Value)) (skip : Bool)
    (k : String) (v : Value) : Value × List ResolutionError :=
  if k = "map" then
    match v with
    | .obj mf =>
      let r := resolveVars vars true mf
      (.obj r.1, r.2)
    | _ => (v, [])
  else if skip then (v, [])
  else
    match v with
    | .str s =>
      if jsStartsWith s "$." then (.str s, [])
      else if jsStartsWith s "$" then
        match mapGet vars (s.drop 1) with
        | some w => (w, [])
        | none =>
          (.str s,
            [⟨"Variable \"" ++ s ++ "\" not found", "VARIABLE_NOT_FOUND",
              none, some k⟩])
      else (.str s, [])
    | .obj f =>
      let r := resolveVars vars false f
      (.obj r.1, r.2)
    | .funcall nm args =>
      if jsStartsWith nm "$." then (.funcall nm args, [])
      else if jsStartsWith nm "$" then
        match mapGet vars (nm.drop 1) with
        | some (.str s') => (.funcall s' args, [])
        | some w =>
          (.obj [("type", .str "function"), ("name", w),
            ("args", .arr args)], [])
        | none =>
          (.funcall nm args,
            [⟨"Variable \"" ++ nm ++ "\" not found", "VARIABLE_NOT_FOUND",
              none, some "name"⟩])
      else (.funcall nm args, [])
    | _ => (v, [])

/-- `Resolver.resolveSchema`, with an explicit fuel (`none` = fuel ran out;
`resolve` supplies enough fuel and the development proves it never runs
out). State: the current schema, the visited set and the resolution path.
Returns the config, the dependencies recorded at this level and below, and
the errors in the order the code pushes them (inheritance errors first,
then this level's variable errors). The JS `visited.delete` / `path.pop`
after the recursive call are implicit: the caller's `visited`/`path` values
are simply unchanged. -/
def resolveSchemaF (reg : List (String × Fields)) (vars : List (String × Value)) :
    Nat → Fields → List String → List String →
    Option (Fields × List String × List ResolutionError)
  | 0, _, _, _ => none
  | fuel + 1, schema, visited, path =>
    let ext : Option Value :=
      match lookupKey schema "extends" with
      | some v => if valueTruthy v then some v else none
      | none => none
    let inherited : Option (Fields × List String × List ResolutionError) :=
      match ext with
      | none => some ([], [], [])
      | some (.str n) =>
        match mapGet reg n with
        | none =>
          some ([], [],
            [⟨"Base schema \"" ++ n ++ "\" not found", "MISSING_SCHEMA",
              some n, none⟩])
        | some base =>
          if n ∈ visited then
            some ([], [],
              [⟨"Circular dependency detected: " ++
                  String.intercalate " -> " path ++ " -> " ++ n,
                "CIRCULAR_DEPENDENCY", some n, none⟩])
          else
            match resolveSchemaF reg vars fuel base (n :: visited) (path ++ [n]) with
            | none => none
            | some (baseCfg, deps, errs) =>
              some (deepMerge [] baseCfg, n :: deps, errs)
      | some v =>
        -- a truthy non-string `extends` never matches a registry key
        some ([], [],
          [⟨"Base schema \"" ++ jsDisplay v ++ "\" not found", "MISSING_SCHEMA",
            some (jsDisplay v), none⟩])
    match inherited with
    | none => none
    | some (config, deps, errs) =>
      let merged := deepMerge config (processSchema schema)
      let r := resolveVars vars false merged
      some (r.1, deps, errs ++ r.2)

/-- `Resolver.resolve`: fresh context, fuel one more than the registry size
(proved sufficient below). -/
def Resolver.resolve (reg : List (String × Fields))
    (vars : List (String × Value)) (schema : Fields) : Option ResolvedConfig :=
  match resolveSchemaF reg vars (reg.length + 1) schema [] [] with
  | some (c, d, e) => some ⟨c, d, e⟩
  | none => none

mutual
/-- Schemas whose values survive `processSchema` and `resolveVariables`
unchanged: no deferred function calls, and every string is either a JSON
path (`"$."`-prefixed) or not `"$"`-prefixed at all. -/
def plainValue : Value → Bool
  | .str s => !jsStartsWith s "$" || jsStartsWith s "$."
  | .num _ => true
  | .bool _ => true
  | .null => true
  | .arr _ => true
  | .obj f => plainFieldsList f
  | .funcall _ _ => false

/-- `plainValue` over a field list. -/
def plainFieldsList : Fields → Bool
  | [] => true
  | (_, v) :: rest => plainValue v && plainFieldsList rest
end

mutual
/-- Spec-side description of the substitution one `resolveVariables` pass
performs on a value in a non-`map`, non-skipped position, following the
spec's sentences: a `"$."`-prefixed string is data-extraction syntax and is
left untouched; any other `"$"`-prefixed string is looked up in the
variable set — found values replace the string, missing ones leave it
as-is; nested objects are substituted recursively; a function-call literal
(the object `{type: 'function', name, args}`) is substituted through its
`name` string (a non-string replacement leaves it in explicit object
form); everything else (arrays included) is copied. -/
def specSubstVal (vars : List (String × Value)) : Value → Value
  | .str s =>
    if jsStartsWith s "$." then .str s
    else if jsStartsWith s "$" then
      match mapGet vars (s.drop 1) with
      | some w => w
      | none => .str s
    else .str s
  | .obj f => .obj (specSubstFields vars f)
  | .funcall nm args =>
    if jsStartsWith nm "$." then .funcall nm args
    else if jsStartsWith nm "$" then
      match mapGet vars (nm.drop 1) with
      | some (.str s') => .funcall s' args
      | some w =>
        .obj [("type", .str "function"), ("name", w), ("args", .arr args)]
      | none => .funcall nm args
    else .funcall nm args
  | v => v

/-- `specSubstVal` over a whole config: keys and entry order are kept, each
value is substituted — except under the `map` key, whose value is never
substituted. -/
def specSubstFields (vars : List (String × Value)) : Fields → Fields
  | [] => []
  | (k, v) :: rest =>
    (k, if k = "map" then v else specSubstVal vars v) ::
      specSubstFields vars rest
end

mutual
/-- Spec-side description of the errors one value contributes (at property
`k`, outside `map`) in one `resolveVariables` pass: exactly one
`VARIABLE_NOT_FOUND` singleton per unmatched reference — a `"$"`-prefixed,
non-`"$."` string with no entry in the variable set, or such a `name` of a
function-call literal (reported at property `"name"`) — recursing through
nested objects; JSON-path strings and everything else contribute none. -/
def specErrsVal (vars : List (String × Value)) :
    String → Value → List ResolutionError
  | k, .str s =>
    if jsStartsWith s "$." then []
    else if jsStartsWith s "$" then
      match mapGet vars (s.drop 1) with
      | some _ => []
      | none =>
        [⟨"Variable \"" ++ s ++ "\" not found", "VARIABLE_NOT_FOUND",
          none, some k⟩]
    else []
  | _, .obj f => specErrsFields vars f
  | _, .funcall nm _ =>
    if jsStartsWith nm "$." then []
    else if jsStartsWith nm "$" then
      match mapGet vars (nm.drop 1) with
      | some _ => []
      | none =>
        [⟨"Variable \"" ++ nm ++ "\" not found", "VARIABLE_NOT_FOUND",
          none, some "name"⟩]
    else []
  | _, _ => []

/-- The errors of a whole config, entry by entry in order; the `map` entry
never contributes. -/
def specErrsFields (vars : List (String × Value)) :
    Fields → List ResolutionError
  | [] => []
  | (k, v) :: rest =>
    (if k = "map" then [] else specErrsVal vars k v) ++
      specErrsFields vars rest
end

/-! ### JSONPath mapper (`src/data-provider/mapper.ts`)

Payloads are parsed JSON, modelled by `Value` (the `funcall` constructor is
treated as the plain JS object `{type, name, args}` it stands for).
Property access `rec[part]` is modelled for objects, arrays (canonical
numeric indices and `length`) and strings; on other primitives it yields
`undefined` (prototype properties are not modelled). -/

/-- JS `\w` (`[A-Za-z0-9_]`, ASCII only). -/
def isWordChar (c : Char) : Bool :=
  ('a' ≤ c && c ≤ 'z') || ('A' ≤ c && c ≤ 'Z') || ('0' ≤ c && c ≤ '9') || c = '_'

/-- JS `\d`. -/
def isDigitChar (c : Char) : Bool :=
  '0' ≤ c && c ≤ '9'

/-- Consume one-or-more word characters up to a `[`; `none` when the text
runs out first or a non-word character appears. -/
def splitAtBracket : List Char → Option (List Char × List Char)
  | [] => none
  | c :: cs =>
    if c = '[' then some ([], cs)
    else if isWordChar c then
      match splitAtBracket cs with
      | some (nm, rest) => some (c :: nm, rest)
      | none => none
    else none

/-- After the `[`: one-or-more digits followed by a final `]`. -/
def digitsThenClose : List Char → Option (List Char)
  | [] => none
  | c :: cs =>
    if isDigitChar c then
      match digitsThenClose cs with
      | some ds => some (c :: ds)
      | none => none
    else if c = ']' then (if cs = [] then some [] else none)
    else none

/-- `parseInt` on a digit string. -/
def digitsToNat (ds : List Char) : Nat :=
  ds.foldl (fun a c => a * 10 + (c.toNat - '0'.toNat)) 0

/-- The regex `^(\w+)\[(\d+)\]$` of `getValue`: a name and a bracketed
integer index. -/
def parseBracket (part : String) : Option (String × Nat) :=
  match splitAtBracket part.toList with
  | some (nm, rest) =>
    if nm.isEmpty then none
    else
      match digitsThenClose rest with
      | some ds => if ds.isEmpty then none else some (String.mk nm, digitsToNat ds)
      | none => none
  | none => none

/-- Canonical JS array/string index: the key must be the canonical decimal
rendering of the index (`arr["01"]` is `undefined`). -/
def canonIndex (key : String) : Option Nat :=
  match key.toNat? with
  | some i => if toString i = key then some i else none
  | none => none

/-- JS property read `current[part]` on a payload value. -/
def jsIndex (v : Value) (key : String) : Option Value :=
  match v with
  | .obj fields => lookupKey fields key
  | .arr xs =>
    if key = "length" then some (.num xs.length)
    else (canonIndex key).bind xs.get?
  | .str s =>
    if key = "length" then some (.num s.length)
    else (canonIndex key).bind fun i =>
      (s.toList.get? i).map fun c => .str (String.mk [c])
  | .funcall nm args =>
    lookupKey [("type", .str "function"), ("name", .str nm),
      ("args", .arr args)] key
  | .num _ => none
  | .bool _ => none
  | .null => none

/-- JS `String.prototype.split` with a single-character separator. -/
def splitChar (c : Char) : List Char → List (List Char)
  | [] => [[]]
  | a :: as =>
    match splitChar c as with
    | [] => [[]]
    | h :: t => if a = c then [] :: h :: t else (a :: h) :: t

/-- `s.split(c)` as JS computes it (`"".split(".") = [""]`). -/
def jsSplit (s : String) (c : Char) : List String :=
  (splitChar c s.toList).map String.mk

/-- The segment loop of `getValue`: `none` is JS `undefined`; a `null` or
`undefined` intermediate stops the walk with `undefined`; a bracketed
segment reads the named property and indexes it when it is an array,
returning `undefined` otherwise. The final value is returned as-is (it may
be `null`). -/
def jsonWalk : Option Value → List String → Option Value
  | cur, [] => cur
  | cur, part :: rest =>
    match cur with
    | none => none
    | some Value.null => none
    | some v =>
      match parseBracket part with
      | some (nm, idx) =>
        match jsIndex v nm with
        | some (Value.arr xs) => jsonWalk (xs.get? idx) rest
        | _ => none
      | none => jsonWalk (jsIndex v part) rest

/-- `JSONPathMapper.getValue`: throws (`Except.error`) only when the path
does not start with the root marker `"$."`; afterwards it walks the
dot-separated segments, yielding `undefined` (`none`) on any missing
intermediate. -/
def JSONPathMapper.getValue (obj : Value) (path : String) :
    Except String (Option Value) :=
  if jsStartsWith path "$." = true then
    .ok (jsonWalk (some obj) (jsSplit (path.drop 2) '.'))
  else
    .error "Invalid JSONPath: must start with \"$.\""

/-- `JSONPathMapper.setNestedValue`. A `null` intermediate makes the JS
code throw a `TypeError` on the next step (modelled as an error); an array
intermediate would have JS attach a named property to the array, which the
`Value` domain cannot represent and is likewise surfaced as an error —
neither corner is reachable from the theorems below. -/
def setNested : Fields → List String → Value → Except String Fields
  | obj, [], _ => .ok obj
  | obj, [p], v => .ok (setKey obj p v)
  | obj, p :: rest, v =>
    match lookupKey obj p with
    | some (Value.obj child) =>
      match setNested child rest v with
      | .ok child' => .ok (setKey obj p (Value.obj child'))
      | .error e => .error e
    | some Value.null => .error "TypeError: cannot create property on null"
    | some (Value.arr _) =>
      .error "unmodelled: property write on an array intermediate"
    | some (Value.funcall _ _) =>
      .error "unmodelled: property write on a function-call literal"
    | _ =>
      match setNested [] rest v with
      | .ok child' => .ok (setKey obj p (Value.obj child'))
      | .error e => .error e

/-- The entry loop of `JSONPathMapper.map`: entries whose source path
resolves to `undefined` are skipped entirely; extracted values (including
`null`) are written at the (possibly dotted) target path. -/
def mapLoop (data : Value) : List (String × String) → Fields →
    Except String Fields
  | [], acc => .ok acc
  | (target, source) :: rest, acc =>
    match JSONPathMapper.getValue data source with
    | .error e => .error e
    | .ok none => mapLoop data rest acc
    | .ok (some v) =>
      match setNested acc (jsSplit target '.') v with
      | .ok acc' => mapLoop data rest acc'
      | .error e => .error e

/-- `JSONPathMapper.map`: a fresh output object filled entry by entry. -/
def JSONPathMapper.mapPaths (data : Value)
    (mapping : List (String × String)) : Except String Fields :=
  mapLoop data mapping []

/-- Two segment lists diverge when they differ at some position before
either runs out — equivalently, neither is a prefix of the other. The
target paths of a mapping table land in disjoint nested positions exactly
when pairwise divergent. -/
def diverges : List String → List String → Bool
  | [], _ => false
  | _ :: _, [] => false
  | p :: ps, q :: qs => p ≠ q || diverges ps qs

/-- Spec-side reader of "the nested position named by the (possibly
dotted) target path": follow the keys through nested objects. -/
def getPath : Fields → List String → Option Value
  | _, [] => none
  | m, [p] => lookupKey m p
  | m, p :: rest =>
    match lookupKey m p with
    | some (.obj f) => getPath f rest
    | _ => none

/-! ### DSL lexer (`src/parser/lexer.ts`)

The lexer state is the not-yet-consumed input (`rest`) plus the `line` /
`column` counters; the JS `position` is the number of consumed characters,
so "position unchanged" is "rest unchanged". `currentChar` / `peekChar`
return `none` where JS returns `''`. `advance` only moves while input
remains, and increments `column` when it does. -/

/-- Token kinds (`src/types/dsl.ts`). -/
inductive TokenType where
  | PROPERTY
  | VALUE
  | COLON
  | SEMICOLON
  | DOT
  | COMMENT
  | INTERPOLATION
  | VARIABLE
  | STRING
  | NUMBER
  | BOOLEAN
  | ARRAY
  | LPAREN
  | RPAREN
  | EOF
  deriving DecidableEq, Repr

/-- `DSLToken`. -/
structure DSLToken where
  type : TokenType
  value : String
  line : Nat
  column : Nat
  deriving DecidableEq, Repr

/-- Lexer state: remaining input and position counters. -/
structure LexState where
  rest : List Char
  line : Nat
  col : Nat
  deriving DecidableEq, Repr

/-- `advance()` by one: moves only while input remains, bumping `column`. -/
def LexState.advance1 (st : LexState) : LexState :=
  match st.rest with
  | [] => st
  | _ :: cs => ⟨cs, st.line, st.col + 1⟩

/-- `/[a-zA-Z_$]/.test(char)`; `false` on end of input (`''`). -/
def Lexer.isIdentifierStart : Option Char → Bool
  | some c =>
    ('a' ≤ c && c ≤ 'z') || ('A' ≤ c && c ≤ 'Z') || c = '_' || c = '$'
  | none => false

/-- `/[a-zA-Z0-9_$]/.test(char)`. -/
def Lexer.isIdentifierChar : Option Char → Bool
  | some c =>
    ('a' ≤ c && c ≤ 'z') || ('A' ≤ c && c ≤ 'Z') ||
      ('0' ≤ c && c ≤ '9') || c = '_' || c = '$'
  | none => false

/-- `/[0-9]/.test(char)`. -/
def Lexer.isDigit : Option Char → Bool
  | some c => '0' ≤ c && c ≤ '9'
  | none => false

/-- JS whitespace handled by `skipWhitespace`. -/
def isWsChar (c : Char) : Bool :=
  c = ' ' || c = '\t' || c = '\r'

/-- `skipWhitespace`: newlines bump `line` and reset `column` to 1 before
the `advance` bumps it to 2; other whitespace just advances. -/
def skipWsAux : List Char → Nat → Nat → LexState
  | [], line, col => ⟨[], line, col⟩
  | c :: cs, line, col =>
    if c = '\n' then skipWsAux cs (line + 1) 2
    else if isWsChar c then skipWsAux cs line (col + 1)
    else ⟨c :: cs, line, col⟩

def Lexer.skipWhitespace (st : LexState) : LexState :=
  skipWsAux st.rest st.line st.col

/-- JS `String.prototype.trim` over the characters appearing in DSL text. -/
def jsTrim (s : String) : String :=
  String.mk (((s.toList.dropWhile fun c => isWsChar c || c = '\n').reverse.dropWhile
    fun c => isWsChar c || c = '\n').reverse)

/-- Shared loop of `readComment` / `readLineComment`: collect characters up
to (not including) the next newline or the end of input. Returns the
collected value, the remaining input and the final column. -/
def readRestOfLine : List Char → Nat → List Char × List Char × Nat
  | [], col => ([], [], col)
  | c :: cs, col =>
    if c = '\n' then ([], c :: cs, col)
    else
      let r := readRestOfLine cs (col + 1)
      (c :: r.1, r.2)

/-- `readComment` (`#`-comment). -/
def Lexer.readComment (st : LexState) : DSLToken × LexState :=
  let st1 := st.advance1
  let r := readRestOfLine st1.rest st1.col
  (⟨TokenType.COMMENT, jsTrim (String.mk r.1), st.line, st.col⟩,
    ⟨r.2.1, st.line, r.2.2⟩)

/-- `readLineComment` (`//`-comment). -/
def Lexer.readLineComment (st : LexState) : DSLToken × LexState :=
  let st1 := st.advance1.advance1
  let r := readRestOfLine st1.rest st1.col
  (⟨TokenType.COMMENT, jsTrim (String.mk r.1), st.line, st.col⟩,
    ⟨r.2.1, st.line, r.2.2⟩)

/-- `readInterpolation` loop: balanced-brace scan at the given depth; the
closing brace that brings the depth to 0 is consumed but not collected. -/
def readInterpAux : List Char → Nat → Nat → List Char × List Char × Nat
  | [], _, col => ([], [], col)
  | c :: cs, depth, col =>
    let d' := if c = '{' then depth + 1 else if c = '}' then depth - 1 else depth
    if d' = 0 then ([], cs, col + 1)
    else
      let r := readInterpAux cs d' (col + 1)
      (c :: r.1, r.2)

/-- `readInterpolation` (`${…}`). -/
def Lexer.readInterpolation (st : LexState) : DSLToken × LexState :=
  let st1 := st.advance1.advance1
  let r := readInterpAux st1.rest 1 st1.col
  (⟨TokenType.INTERPOLATION, jsTrim (String.mk r.1), st.line, st.col⟩,
    ⟨r.2.1, st.line, r.2.2⟩)

/-- Loop collecting identifier characters. -/
def readIdentAux : List Char → Nat → List Char × List Char × Nat
  | [], col => ([], [], col)
  | c :: cs, col =>
    if Lexer.isIdentifierChar (some c) then
      let r := readIdentAux cs (col + 1)
      (c :: r.1, r.2)
    else ([], c :: cs, col)

/-- `readVariable` (`$name`). -/
def Lexer.readVariable (st : LexState) : DSLToken × LexState :=
  let st1 := st.advance1
  let r := readIdentAux st1.rest st1.col
  (⟨TokenType.VARIABLE, "$" ++ String.mk r.1, st.line, st.col⟩,
    ⟨r.2.1, st.line, r.2.2⟩)

/-- `readIdentifier`. -/
def Lexer.readIdentifier (st : LexState) : DSLToken × LexState :=
  let r := readIdentAux st.rest st.col
  (⟨TokenType.PROPERTY, String.mk r.1, st.line, st.col⟩,
    ⟨r.2.1, st.line, r.2.2⟩)

/-- `readString` loop: stops before the closing quote (consumed by the
wrapper) or at end of input; `\\n`, `\\t`, `\\r` escape to control
characters, any other escaped character stands for itself; a trailing
backslash at end of input is dropped. -/
def readStringAux (quote : Char) : List Char → Nat → List Char × List Char × Nat
  | [], col => ([], [], col)
  | c :: cs, col =>
    if c = quote then ([], c :: cs, col)
    else if c = '\\' then
      match cs with
      | [] => ([], [], col + 1)
      | e :: cs' =>
        let ch :=
          if e = 'n' then '\n'
          else if e = 't' then '\t'
          else if e = 'r' then '\r'
          else e
        let r := readStringAux quote cs' (col + 2)
        (ch :: r.1, r.2)
    else
      let r := readStringAux quote cs (col + 1)
      (c :: r.1, r.2)

/-- `readString`. -/
def Lexer.readString (st : LexState) (quote : Char) : DSLToken × LexState :=
  let st1 := st.advance1
  let r := readStringAux quote st1.rest st1.col
  let fin : List Char × Nat :=
    match r.2.1 with
    | c :: cs => if c = quote then (cs, r.2.2 + 1) else (c :: cs, r.2.2)
    | [] => ([], r.2.2)
  (⟨TokenType.STRING, String.mk r.1, st.line, st.col⟩,
    ⟨fin.1, st.line, fin.2⟩)

/-- `readNumber` loop: digits and dots. -/
def readNumberAux : List Char → Nat → List Char × List Char × Nat
  | [], col => ([], [], col)
  | c :: cs, col =>
    if Lexer.isDigit (some c) || c = '.' then
      let r := readNumberAux cs (col + 1)
      (c :: r.1, r.2)
    else ([], c :: cs, col)

/-- `readNumber`. -/
def Lexer.readNumber (st : LexState) : DSLToken × LexState :=
  let r := readNumberAux st.rest st.col
  (⟨TokenType.NUMBER, String.mk r.1, st.line, st.col⟩,
    ⟨r.2.1, st.line, r.2.2⟩)

/-- `Lexer.match(str)`: the next characters spell `str` and the character
after is not an identifier character (`''` at end of input is not). -/
def matchesChars : List Char → List Char → Bool
  | _, [] => true
  | [], _ :: _ => false
  | a :: as, b :: bs => a = b && matchesChars as bs

def Lexer.matchKeyword (st : LexState) (kw : String) : Bool :=
  matchesChars st.rest kw.toList &&
    !Lexer.isIdentifierChar (st.rest.get? kw.toList.length)

/-- `nextToken`: the branch order of the source. Note the boolean branches
return a token via `createToken` without advancing — the state is returned
unchanged. Punctuation and the bare-`$` branches advance first and then
build the token from the post-advance position, as `createToken` reads
`this.line`/`this.column` after the `advance()`. An unrecognized character
is skipped (`none` plus one `advance`). -/
def Lexer.nextToken (st : LexState) : Option DSLToken × LexState :=
  let c := st.rest.head?
  if c = some '#' then
    let r := Lexer.readComment st
    (some r.1, r.2)
  else if c = some '/' && st.rest.get? 1 = some '/' then
    let r := Lexer.readLineComment st
    (some r.1, r.2)
  else if c = some '$' && st.rest.get? 1 = some '{' then
    let r := Lexer.readInterpolation st
    (some r.1, r.2)
  else if c = some '$' then
    if st.rest.get? 1 = some '.' then
      let st' := st.advance1
      (some ⟨TokenType.VARIABLE, "$", st'.line, st'.col⟩, st')
    else if Lexer.isIdentifierStart (st.rest.get? 1) then
      let r := Lexer.readVariable st
      (some r.1, r.2)
    else
      let st' := st.advance1
      (some ⟨TokenType.VARIABLE, "$", st'.line, st'.col⟩, st')
  else if c = some '"' then
    let r := Lexer.readString st '"'
    (some r.1, r.2)
  else if c = some '\'' then
    let r := Lexer.readString st '\''
    (some r.1, r.2)
  else if Lexer.isDigit c then
    let r := Lexer.readNumber st
    (some r.1, r.2)
  else if Lexer.matchKeyword st "true" then
    (some ⟨TokenType.BOOLEAN, "true", st.line, st.col⟩, st)
  else if Lexer.matchKeyword st "false" then
    (some ⟨TokenType.BOOLEAN, "false", st.line, st.col⟩, st)
  else if c = some ':' then
    let st' := st.advance1
    (some ⟨TokenType.COLON, ":", st'.line, st'.col⟩, st')
  else if c = some ';' then
    let st' := st.advance1
    (some ⟨TokenType.SEMICOLON, ";", st'.line, st'.col⟩, st')
  else if c = some '.' then
    let st' := st.advance1
    (some ⟨TokenType.DOT, ".", st'.line, st'.col⟩, st')
  else if c = some '(' then
    let st' := st.advance1
    (some ⟨TokenType.LPAREN, "(", st'.line, st'.col⟩, st')
  else if c = some ')' then
    let st' := st.advance1
    (some ⟨TokenType.RPAREN, ")", st'.line, st'.col⟩, st')
  else if Lexer.isIdentifierStart c then
    let r := Lexer.readIdentifier st
    (some r.1, r.2)
  else
    (none, st.advance1)

/-- The `tokenize` loop over an explicit fuel (`none` = fuel exhausted;
`tokenize` supplies enough and `tokenizeAux_isSome` proves it never runs
out). The token accumulator is kept reversed (constant-time push); the
JS breaks translate to: stop at end of input (before and after
whitespace skipping), stop when a `null` token comes with an unchanged
position, and stop once more than 1000 tokens have been emitted (checked
after the push, exactly as in the source). -/
def tokenizeAux : Nat → LexState → List DSLToken →
    Option (List DSLToken × LexState)
  | 0, _, _ => none
  | fuel + 1, st, acc =>
    if st.rest.isEmpty then some (acc, st)
    else
      let st1 := Lexer.skipWhitespace st
      if st1.rest.isEmpty then some (acc, st1)
      else
        let r := Lexer.nextToken st1
        match r.1 with
        | none =>
          if r.2.rest.length = st1.rest.length then some (acc, r.2)
          else if acc.length > 1000 then some (acc, r.2)
          else tokenizeAux fuel r.2 acc
        | some t =>
          if (t :: acc).length > 1000 then some (t :: acc, r.2)
          else tokenizeAux fuel r.2 (t :: acc)

/-- `Lexer.tokenize`: run the loop from line 1, column 1 and append the
final `EOF` token at the final position. -/
def Lexer.tokenize (input : String) : List DSLToken :=
  match tokenizeAux (input.toList.length + 1002) ⟨input.toList, 1, 1⟩ [] with
  | some (acc, st') =>
    acc.reverse ++ [⟨TokenType.EOF, "", st'.line, st'.col⟩]
  | none => [⟨TokenType.EOF, "", 1, 1⟩]

/-! ### Caches (`src/data-provider/cache.ts`)

JS `Map` entries in insertion order; `mapGet` is `Map.get`, `mapDelete` is
`Map.delete` (removes the unique matching entry), and setting a key that is
known to be absent appends at the end. -/

/-- `LRUCache<K, V>`: a capacity-bounded store over an insertion-ordered map. -/
structure LRUCache (K V : Type) where
  capacity : Nat
  entries : List (K × V)

/-- `new LRUCache(capacity)` (TS default capacity 50). -/
def LRUCache.empty (K V : Type) (capacity : Nat := 50) : LRUCache K V :=
  ⟨capacity, []⟩

/-- `LRUCache.get`: on a hit the entry is deleted and re-inserted at the end
(most-recently used); returns the value and the updated cache. -/
def LRUCache.get {K V : Type} [DecidableEq K] (c : LRUCache K V) (k : K) :
    Option V × LRUCache K V :=
  match mapGet c.entries k with
  | none => (none, c)
  | some v => (some v, ⟨c.capacity, mapDelete c.entries k ++ [(k, v)]⟩)

/-- `LRUCache.set`: an existing key is deleted first (moved to the end); at
capacity the first (least-recently used) entry is evicted, when one exists
(`firstKey !== undefined`). -/
def LRUCache.set {K V : Type} [DecidableEq K] (c : LRUCache K V) (k : K) (v : V) :
    LRUCache K V :=
  let entries :=
    if (mapGet c.entries k).isSome then
      mapDelete c.entries k
    else if c.entries.length ≥ c.capacity then
      match c.entries with
      | [] => c.entries
      | (k₀, _) :: _ => mapDelete c.entries k₀
    else
      c.entries
  ⟨c.capacity, entries ++ [(k, v)]⟩

/-- `LRUCache.delete`. -/
def LRUCache.del {K V : Type} [DecidableEq K] (c : LRUCache K V) (k : K) :
    LRUCache K V :=
  ⟨c.capacity, mapDelete c.entries k⟩

/-- `LRUCache.clear`. -/
def LRUCache.clearAll {K V : Type} (c : LRUCache K V) : LRUCache K V :=
  ⟨c.capacity, []⟩

/-- `LRUCache.has`. -/
def LRUCache.hasKey {K V : Type} [DecidableEq K] (c : LRUCache K V) (k : K) :
    Bool :=
  (mapGet c.entries k).isSome

/-- `LRUCache.size`. -/
def LRUCache.size {K V : Type} (c : LRUCache K V) : Nat :=
  c.entries.length

/-- One public operation on the LRU cache, for stating invariants over
arbitrary operation sequences. -/
inductive LRUOp (K V : Type) where
  | get (k : K)
  | set (k : K) (v : V)
  | del (k : K)
  | clearAll

def LRUCache.applyOp {K V : Type} [DecidableEq K] (c : LRUCache K V) :
    LRUOp K V → LRUCache K V
  | .get k => (c.get k).2
  | .set k v => c.set k v
  | .del k => c.del k
  | .clearAll => c.clearAll

def LRUCache.runOps {K V : Type} [DecidableEq K] (c : LRUCache K V)
    (ops : List (LRUOp K V)) : LRUCache K V :=
  ops.foldl LRUCache.applyOp c

/-- `CacheEntry<T>`: `{data, timestamp, ttl}`; the stored `ttl` is always a
number (`ttl || defaultTTL`), with `0` behaving as falsy in the TTL check. -/
structure CacheEntry (V : Type) where
  data : V
  timestamp : Int
  ttl : Nat

/-- JS `x || d` for an optional numeric option: `undefined` and `0` both fall
back to the default. -/
def jsOrNat (o : Option Nat) (d : Nat) : Nat :=
  match o with
  | none => d
  | some 0 => d
  | some n => n

/-- JS `x || d` for an optional string option: `undefined` and `""` both fall
back to the default. -/
def jsOrStr (o : Option String) (d : String) : String :=
  match o with
  | none => d
  | some "" => d
  | some s => s

/-- `TTLCache<K, V>`: an LRU cache of TTL-stamped entries. -/
structure TTLCache (K V : Type) where
  cache : LRUCache K (CacheEntry V)
  defaultTTL : Nat

/-- `new TTLCache(capacity, defaultTTL)` (TS defaults 50 and 3600000). -/
def TTLCache.empty (K V : Type) (capacity : Nat := 50)
    (defaultTTL : Nat := 3600000) : TTLCache K V :=
  ⟨LRUCache.empty K (CacheEntry V) capacity, defaultTTL⟩

/-- `TTLCache.get` at clock `now` (`Date.now()`): a hit whose age exceeds its
(truthy) `ttl` is deleted and reported absent; otherwise the data is
returned. The inner LRU `get` re-orders the entry even on the expired path. -/
def TTLCache.get {K V : Type} [DecidableEq K] (c : TTLCache K V) (now : Int)
    (k : K) : Option V × TTLCache K V :=
  match c.cache.get k with
  | (none, inner) => (none, ⟨inner, c.defaultTTL⟩)
  | (some e, inner) =>
    if e.ttl ≠ 0 then
      if now - e.timestamp > (e.ttl : Int) then
        (none, ⟨inner.del k, c.defaultTTL⟩)
      else
        (some e.data, ⟨inner, c.defaultTTL⟩)
    else
      (some e.data, ⟨inner, c.defaultTTL⟩)

/-- `TTLCache.set` at clock `now`: stores `{data, timestamp: now,
ttl: ttl || defaultTTL}`. -/
def TTLCache.set {K V : Type} [DecidableEq K] (c : TTLCache K V) (now : Int)
    (k : K) (v : V) (ttl : Option Nat) : TTLCache K V :=
  ⟨c.cache.set k ⟨v, now, jsOrNat ttl c.defaultTTL⟩, c.defaultTTL⟩

/-- `TTLCache.has`: reads through the raw LRU `get` (which re-orders the
entry) and never consults the TTL. -/
def TTLCache.hasKey {K V : Type} [DecidableEq K] (c : TTLCache K V) (k : K) :
    Bool × TTLCache K V :=
  match c.cache.get k with
  | (e?, inner) => (e?.isSome, ⟨inner, c.defaultTTL⟩)

/-! ### REST provider configuration and retry (`src/data-provider/rest.ts`) -/

/-- `RestProviderConfig` (all fields optional). -/
structure RestProviderConfig where
  baseURL : Option String
  timeout : Option Nat
  retryCount : Option Nat
  retryDelay : Option Nat
  cacheEnabled : Option Bool
  cacheTTL : Option Nat
  cacheSize : Option Nat
  headers : Option (List (String × String))

/-- `Required<RestProviderConfig>` as built by the constructor. -/
structure RestProviderConfigR where
  baseURL : String
  timeout : Nat
  retryCount : Nat
  retryDelay : Nat
  cacheEnabled : Bool
  cacheTTL : Nat
  cacheSize : Nat
  headers : List (String × String)

/-- The `RestDataProvider` constructor's option defaulting: `||` fallbacks for
the numeric/string options (so `0` and `""` silently become the defaults) and
`config.cacheEnabled !== false` for the flag. -/
def mkRestProviderConfig (c : RestProviderConfig) : RestProviderConfigR :=
  { baseURL := jsOrStr c.baseURL ""
    timeout := jsOrNat c.timeout 5000
    retryCount := jsOrNat c.retryCount 3
    retryDelay := jsOrNat c.retryDelay 1000
    cacheEnabled := c.cacheEnabled ≠ some false
    cacheTTL := jsOrNat c.cacheTTL 3600000
    cacheSize := jsOrNat c.cacheSize 50
    headers := c.headers.getD [] }

/-- Outcome of one `executeRequest` attempt: either a response value or a
thrown error carrying its JS `name` (cancellation = `"AbortError"`) and
message. -/
inductive AttemptOutcome (V : Type) where
  | ok (v : V)
  | err (name : String) (message : String)

/-- A JS error, by `name` and message. -/
structure JsError where
  name : String
  message : String

/-- Observable result of `fetchWithRetry`: the value returned or error
thrown, the number of `executeRequest` attempts made, and the list of
backoff delays slept (in order). -/
structure RetryTrace (V : Type) where
  result : Except JsError V
  attemptsMade : Nat
  delays : List Nat

/-- The `for (attempt = 0; attempt <= retryCount; attempt++)` loop of
`fetchWithRetry`, with `left = retryCount - attempt` attempts remaining after
the current one. A success returns immediately; an `AbortError` is rethrown
immediately; on the final attempt (`left = 0`) the last error is thrown;
otherwise the loop sleeps `retryDelay * 2 ^ attempt` and retries. -/
def retryLoop {V : Type} (attempts : Nat → AttemptOutcome V) (retryDelay : Nat)
    (attempt : Nat) (left : Nat) : RetryTrace V :=
  match attempts attempt with
  | .ok v => ⟨.ok v, 1, []⟩
  | .err name msg =>
    if name = "AbortError" then ⟨.error ⟨name, msg⟩, 1, []⟩
    else
      match left with
      | 0 => ⟨.error ⟨name, msg⟩, 1, []⟩
      | left' + 1 =>
        let d := retryDelay * 2 ^ attempt
        let r := retryLoop attempts retryDelay (attempt + 1) left'
        ⟨r.result, r.attemptsMade + 1, d :: r.delays⟩
termination_by left

/-- `fetchWithRetry`, abstracted over the outcome of each attempt. -/
def fetchWithRetry {V : Type} (attempts : Nat → AttemptOutcome V)
    (retryCount retryDelay : Nat) : RetryTrace V :=
  retryLoop attempts retryDelay 0 retryCount

theorem lookupKey_setKey_self (fields : Fields) (k : String) (v : Value) :
    lookupKey (setKey fields k v) k = some v := by
  induction fields with
  | nil => simp [setKey, lookupKey]
  | cons p rest ih =>
    obtain ⟨a, b⟩ := p
    by_cases ha : a = k
    · simp [setKey, ha, lookupKey]
    · simp [setKey, ha, lookupKey, ih]

theorem lookupKey_setKey_other (fields : Fields) (k k' : String) (v : Value)
    (hne : k' ≠ k) : lookupKey (setKey fields k v) k' = lookupKey fields k' := by
  induction fields with
  | nil => simp [setKey, lookupKey, Ne.symm hne]
  | cons p rest ih =>
    obtain ⟨a, b⟩ := p
    by_cases ha : a = k
    · subst ha
      by_cases ha' : a = k'
      · exact absurd ha'.symm hne
      · simp [setKey, lookupKey, ha', Ne.symm hne]
    · by_cases ha' : a = k'
      · simp [setKey, ha, lookupKey, ha', hne]
      · simp [setKey, ha, lookupKey, ha', ih]

/-! ### Generic map lemmas -/

theorem mapDelete_length_le {K V : Type} [DecidableEq K] (l : List (K × V))
    (k : K) : (mapDelete l k).length ≤ l.length := by
  induction l with
  | nil => simp [mapDelete]
  | cons p rest ih =>
    obtain ⟨a, b⟩ := p
    by_cases ha : a = k
    · simp [mapDelete, ha]
    · simp [mapDelete, ha]
      omega

theorem mapGet_some_length {K V : Type} [DecidableEq K] {l : List (K × V)}
    {k : K} {v : V} (h : mapGet l k = some v) :
    l.length = (mapDelete l k).length + 1 := by
  induction l with
  | nil => simp [mapGet] at h
  | cons p rest ih =>
    obtain ⟨a, b⟩ := p
    by_cases ha : a = k
    · simp [mapDelete, ha]
    · simp [mapGet, ha] at h
      simp [mapDelete, ha, ih h]

theorem mapGet_append_some {K V : Type} [DecidableEq K] {xs : List (K × V)}
    {k : K} {v : V} (ys : List (K × V)) (h : mapGet xs k = some v) :
    mapGet (xs ++ ys) k = some v := by
  induction xs with
  | nil => simp [mapGet] at h
  | cons p rest ih =>
    obtain ⟨a, b⟩ := p
    by_cases ha : a = k
    · simp_all [mapGet]
    · simp [mapGet, ha] at h ⊢
      exact ih h

theorem mapGet_append_none {K V : Type} [DecidableEq K] {xs : List (K × V)}
    {k : K} (ys : List (K × V)) (h : mapGet xs k = none) :
    mapGet (xs ++ ys) k = mapGet ys k := by
  induction xs with
  | nil => simp [mapGet]
  | cons p rest ih =>
    obtain ⟨a, b⟩ := p
    by_cases ha : a = k
    · simp [mapGet, ha] at h
    · simp [mapGet, ha] at h ⊢
      exact ih h

theorem mapGet_some_mem_keys {K V : Type} [DecidableEq K] {l : List (K × V)}
    {k : K} {v : V} (h : mapGet l k = some v) : k ∈ l.map Prod.fst := by
  induction l with
  | nil => simp [mapGet] at h
  | cons p rest ih =>
    obtain ⟨a, b⟩ := p
    by_cases ha : a = k
    · simp [ha]
    · simp [mapGet, ha] at h
      simp [ih h]

theorem mapGet_mapDelete_self {K V : Type} [DecidableEq K]
    {l : List (K × V)} (k : K) (hnd : (l.map Prod.fst).Nodup) :
    mapGet (mapDelete l k) k = none := by
  induction l with
  | nil => simp [mapDelete, mapGet]
  | cons p rest ih =>
    obtain ⟨a, b⟩ := p
    rw [List.map_cons, List.nodup_cons] at hnd
    by_cases ha : a = k
    · subst ha
      simp [mapDelete]
      cases hl : mapGet rest a with
      | none => rfl
      | some w => exact absurd (mapGet_some_mem_keys hl) hnd.1
    · simp [mapDelete, ha, mapGet, ha, ih hnd.2]

theorem mapDelete_append_of_none {K V : Type} [DecidableEq K]
    {xs : List (K × V)} {k : K} (ys : List (K × V)) (h : mapGet xs k = none) :
    mapDelete (xs ++ ys) k = xs ++ mapDelete ys k := by
  induction xs with
  | nil => simp
  | cons p rest ih =>
    obtain ⟨a, b⟩ := p
    by_cases ha : a = k
    · simp [mapGet, ha] at h
    · simp [mapGet, ha] at h
      simp [mapDelete, ha, ih h]

theorem mapGet_mapDelete_other {K V : Type} [DecidableEq K]
    (l : List (K × V)) (k k' : K) (hne : k' ≠ k) :
    mapGet (mapDelete l k) k' = mapGet l k' := by
  induction l with
  | nil => simp [mapDelete]
  | cons p rest ih =>
    obtain ⟨a, b⟩ := p
    by_cases ha : a = k
    · subst ha
      simp [mapDelete, mapGet, Ne.symm hne]
    · by_cases ha' : a = k'
      · subst ha'
        simp [mapDelete, ha, mapGet]
      · simp [mapDelete, ha, mapGet, ha', ih]

/-! ### LRU cache size lemmas -/

theorem LRUCache.get_size {K V : Type} [DecidableEq K] (c : LRUCache K V)
    (k : K) : ((c.get k).2).size = c.size := by
  unfold LRUCache.get
  cases h : mapGet c.entries k with
  | none => rfl
  | some v =>
    simp [LRUCache.size]
    exact (mapGet_some_length h).symm

theorem LRUCache.get_capacity {K V : Type} [DecidableEq K] (c : LRUCache K V)
    (k : K) : ((c.get k).2).capacity = c.capacity := by
  unfold LRUCache.get
  cases h : mapGet c.entries k <;> rfl

theorem LRUCache.set_capacity {K V : Type} [DecidableEq K] (c : LRUCache K V)
    (k : K) (v : V) : (c.set k v).capacity = c.capacity := rfl

theorem LRUCache.set_size_le {K V : Type} [DecidableEq K] (c : LRUCache K V)
    (k : K) (v : V) (hcap : 1 ≤ c.capacity) (h : c.size ≤ c.capacity) :
    (c.set k v).size ≤ c.capacity := by
  obtain ⟨cap, entries⟩ := c
  simp only [LRUCache.size] at h hcap ⊢
  unfold LRUCache.set
  by_cases hk : (mapGet entries k).isSome
  · obtain ⟨w, hw⟩ := Option.isSome_iff_exists.mp hk
    have hl := mapGet_some_length hw
    simp [hk]
    omega
  · by_cases hlen : entries.length ≥ cap
    · cases entries with
      | nil =>
        simp at hlen
        simp [mapGet, hlen]
        omega
      | cons p rest =>
        obtain ⟨a, b⟩ := p
        simp only [List.length_cons] at h
        have hc : cap ≤ rest.length + 1 := by simpa using hlen
        simp [hk, hc, mapDelete]
        omega
    · simp [hk, hlen]
      omega

theorem LRUCache.applyOp_capacity {K V : Type} [DecidableEq K]
    (c : LRUCache K V) (op : LRUOp K V) :
    (c.applyOp op).capacity = c.capacity := by
  cases op with
  | get k => exact c.get_capacity k
  | set k v => rfl
  | del k => rfl
  | clearAll => rfl

theorem LRUCache.applyOp_size_le {K V : Type} [DecidableEq K]
    (c : LRUCache K V) (op : LRUOp K V) (hcap : 1 ≤ c.capacity)
    (h : c.size ≤ c.capacity) : (c.applyOp op).size ≤ c.capacity := by
  cases op with
  | get k =>
    show ((c.get k).2).size ≤ c.capacity
    rw [c.get_size k]
    exact h
  | set k v => exact c.set_size_le k v hcap h
  | del k =>
    show (mapDelete c.entries k).length ≤ c.capacity
    exact le_trans (mapDelete_length_le c.entries k) h
  | clearAll =>
    show (0 : Nat) ≤ c.capacity
    omega

theorem LRUCache.runOps_size_le {K V : Type} [DecidableEq K]
    (ops : List (LRUOp K V)) (c : LRUCache K V) (hcap : 1 ≤ c.capacity)
    (h : c.size ≤ c.capacity) :
    ((c.runOps ops).size ≤ c.capacity ∧ (c.runOps ops).capacity = c.capacity) := by
  induction ops generalizing c with
  | nil => exact ⟨h, rfl⟩
  | cons op rest ih =>
    have hcap' : (c.applyOp op).capacity = c.capacity := c.applyOp_capacity op
    have h' := c.applyOp_size_le op hcap h
    have := ih (c.applyOp op) (by rw [hcap']; exact hcap) (by rw [hcap']; exact h')
    show ((c.applyOp op).runOps rest).size ≤ c.capacity ∧
      ((c.applyOp op).runOps rest).capacity = c.capacity
    rw [← hcap']
    exact this

/-! ### Retry loop lemmas -/

theorem retryLoop_all_fail {V : Type} (attempts : Nat → AttemptOutcome V)
    (d : Nat) (en em : Nat → String) :
    ∀ left attempt,
      (∀ i, i ≤ left → attempts (attempt + i) = .err (en (attempt + i)) (em (attempt + i))) →
      (∀ i, i ≤ left → en (attempt + i) ≠ "AbortError") →
      retryLoop attempts d attempt left =
        ⟨.error ⟨en (attempt + left), em (attempt + left)⟩, left + 1,
          (List.range left).map (fun i => d * 2 ^ (attempt + i))⟩ := by
  intro left
  induction left with
  | zero =>
    intro attempt hfail habort
    have h0 := hfail 0 (by omega)
    have h0n := habort 0 (by omega)
    simp at h0 h0n
    rw [retryLoop, h0]
    simp [h0n]
  | succ left' ih =>
    intro attempt hfail habort
    have h0 := hfail 0 (by omega)
    have h0n := habort 0 (by omega)
    simp at h0 h0n
    have hrec := ih (attempt + 1)
      (by intro i hi; have := hfail (i + 1) (by omega); simpa [Nat.add_assoc, Nat.add_comm 1 i] using this)
      (by intro i hi; have := habort (i + 1) (by omega); simpa [Nat.add_assoc, Nat.add_comm 1 i] using this)
    rw [retryLoop, h0]
    simp only [h0n, if_neg (by exact h0n)]
    rw [hrec]
    have harr : attempt + 1 + left' = attempt + (left' + 1) := by omega
    simp [harr, List.range_succ_eq_map]
    intro a _
    exact Or.inl (by omega)

theorem retryLoop_abort {V : Type} (attempts : Nat → AttemptOutcome V)
    (d : Nat) (ms : String) :
    ∀ k left attempt, k ≤ left →
      (∀ i, i < k → ∃ n m, attempts (attempt + i) = .err n m ∧ n ≠ "AbortError") →
      attempts (attempt + k) = .err "AbortError" ms →
      retryLoop attempts d attempt left =
        ⟨.error ⟨"AbortError", ms⟩, k + 1,
          (List.range k).map (fun i => d * 2 ^ (attempt + i))⟩ := by
  intro k
  induction k with
  | zero =>
    intro left attempt _ _ habort
    simp at habort
    rw [retryLoop, habort]
    simp
  | succ k' ih =>
    intro left attempt hk hfail habort
    obtain ⟨n, m, h0, h0n⟩ := hfail 0 (by omega)
    simp at h0
    cases left with
    | zero => omega
    | succ left' =>
      have hrec := ih left' (attempt + 1) (by omega)
        (by intro i hi
            obtain ⟨n', m', hi', hn'⟩ := hfail (i + 1) (by omega)
            exact ⟨n', m', by simpa [Nat.add_assoc, Nat.add_comm 1 i] using hi', hn'⟩)
        (by have := habort; simpa [Nat.add_assoc, Nat.add_comm 1 k'] using this)
      rw [retryLoop, h0]
      simp only [if_neg h0n]
      rw [hrec]
      simp [List.range_succ_eq_map]
      intro a _
      exact Or.inl (by omega)

/-! ### Claim theorems: retry policy and caches -/

/-- C4: for a request adapter with `retryCount = 3` whose `executeRequest`
fails on every attempt with a non-cancellation error, `fetchWithRetry` makes
exactly 4 attempts, sleeps exponentially growing backoff delays
`retryDelay * 2 ^ attempt` between attempts, and finally throws the last
attempt's error; if some attempt fails with an `AbortError` (cancellation),
the error is rethrown immediately and no further attempts are made. -/
theorem C4_fetch_retry_policy :
    (∀ (V : Type) (attempts : Nat → AttemptOutcome V) (d : Nat)
        (en em : Nat → String),
      (∀ i, i ≤ 3 → attempts i = .err (en i) (em i)) →
      (∀ i, i ≤ 3 → en i ≠ "AbortError") →
      (fetchWithRetry attempts 3 d).attemptsMade = 4 ∧
      (fetchWithRetry attempts 3 d).result = .error ⟨en 3, em 3⟩ ∧
      (fetchWithRetry attempts 3 d).delays = [d * 2 ^ 0, d * 2 ^ 1, d * 2 ^ 2]) ∧
    (∀ (V : Type) (attempts : Nat → AttemptOutcome V) (d k : Nat) (ms : String),
      k ≤ 3 →
      (∀ i, i < k → ∃ n m, attempts i = .err n m ∧ n ≠ "AbortError") →
      attempts k = .err "AbortError" ms →
      (fetchWithRetry attempts 3 d).attemptsMade = k + 1 ∧
      (fetchWithRetry attempts 3 d).result = .error ⟨"AbortError", ms⟩ ∧
      (fetchWithRetry attempts 3 d).delays.length = k) := by
  constructor
  · intro V attempts d en em hfail habort
    have h := retryLoop_all_fail attempts d en em 3 0
      (by intro i hi; simpa using hfail i hi)
      (by intro i hi; simpa using habort i hi)
    unfold fetchWithRetry
    rw [h]
    refine ⟨rfl, rfl, ?_⟩
    simp [List.range_succ]
  · intro V attempts d k ms hk hfail habort
    have h := retryLoop_abort attempts d ms k 3 0 hk
      (by intro i hi; simpa using hfail i hi)
      (by simpa using habort)
    unfold fetchWithRetry
    rw [h]
    refine ⟨rfl, rfl, by simp⟩

theorem C4_fetch_retry_policy_witness :
    ((fetchWithRetry (V := Nat) (fun i => .err "HTTP 500" (toString i)) 3 7).attemptsMade = 4 ∧
     (fetchWithRetry (V := Nat) (fun i => .err "HTTP 500" (toString i)) 3 7).result =
       .error ⟨"HTTP 500", "3"⟩ ∧
     (fetchWithRetry (V := Nat) (fun i => .err "HTTP 500" (toString i)) 3 7).delays =
       [7 * 2 ^ 0, 7 * 2 ^ 1, 7 * 2 ^ 2]) ∧
    ((fetchWithRetry (V := Nat)
        (fun i => if i = 0 then .err "HTTP 500" "boom" else .err "AbortError" "cancelled")
        3 7).attemptsMade = 2 ∧
     (fetchWithRetry (V := Nat)
        (fun i => if i = 0 then .err "HTTP 500" "boom" else .err "AbortError" "cancelled")
        3 7).result = .error ⟨"AbortError", "cancelled"⟩ ∧
     (fetchWithRetry (V := Nat)
        (fun i => if i = 0 then .err "HTTP 500" "boom" else .err "AbortError" "cancelled")
        3 7).delays.length = 1) := by
  constructor
  · exact C4_fetch_retry_policy.1 Nat (fun i => .err "HTTP 500" (toString i)) 7
      (fun _ => "HTTP 500") (fun i => toString i)
      (fun i _ => rfl) (fun i _ => by simp)
  · exact C4_fetch_retry_policy.2 Nat
      (fun i => if i = 0 then .err "HTTP 500" "boom" else .err "AbortError" "cancelled")
      7 1 "cancelled" (by decide)
      (fun i hi => ⟨"HTTP 500", "boom", by
        have h0 : i = 0 := by omega
        subst h0
        rfl, by decide⟩)
      (by simp)

/-- C5: for the LRU cache with capacity 3: after three inserts of distinct
keys, a fourth distinct insert evicts exactly the least-recently-touched key
(the whole resulting state is pinned down); a `get` on a key before the
fourth insert moves it to most-recent and protects it from that eviction
(and returns its value); and the size after any operation sequence from the
empty cache never exceeds the capacity 3. -/
theorem C5_lru_eviction_and_bound (K V : Type) [DecidableEq K]
    (k1 k2 k3 k4 : K) (v1 v2 v3 v4 : V)
    (h12 : k1 ≠ k2) (h13 : k1 ≠ k3) (h14 : k1 ≠ k4)
    (h23 : k2 ≠ k3) (h24 : k2 ≠ k4) (h34 : k3 ≠ k4) :
    ((((LRUCache.empty K V 3).set k1 v1).set k2 v2).set k3 v3).set k4 v4 =
      ⟨3, [(k2, v2), (k3, v3), (k4, v4)]⟩ ∧
    (((((LRUCache.empty K V 3).set k1 v1).set k2 v2).set k3 v3).get k1).1 = some v1 ∧
    ((((((LRUCache.empty K V 3).set k1 v1).set k2 v2).set k3 v3).get k1).2).set k4 v4 =
      ⟨3, [(k3, v3), (k1, v1), (k4, v4)]⟩ ∧
    ∀ ops : List (LRUOp K V), ((LRUCache.empty K V 3).runOps ops).size ≤ 3 := by
  have e1 : (LRUCache.empty K V 3).set k1 v1 = ⟨3, [(k1, v1)]⟩ := by
    simp [LRUCache.empty, LRUCache.set, mapGet]
  have e2 : ((⟨3, [(k1, v1)]⟩ : LRUCache K V)).set k2 v2 =
      ⟨3, [(k1, v1), (k2, v2)]⟩ := by
    simp [LRUCache.set, mapGet, h12]
  have e3 : ((⟨3, [(k1, v1), (k2, v2)]⟩ : LRUCache K V)).set k3 v3 =
      ⟨3, [(k1, v1), (k2, v2), (k3, v3)]⟩ := by
    simp [LRUCache.set, mapGet, h13, h23]
  have e4 : ((⟨3, [(k1, v1), (k2, v2), (k3, v3)]⟩ : LRUCache K V)).set k4 v4 =
      ⟨3, [(k2, v2), (k3, v3), (k4, v4)]⟩ := by
    simp [LRUCache.set, mapGet, mapDelete, h14, h24, h34]
  have g1 : ((⟨3, [(k1, v1), (k2, v2), (k3, v3)]⟩ : LRUCache K V)).get k1 =
      (some v1, ⟨3, [(k2, v2), (k3, v3), (k1, v1)]⟩) := by
    simp [LRUCache.get, mapGet, mapDelete]
  have e5 : ((⟨3, [(k2, v2), (k3, v3), (k1, v1)]⟩ : LRUCache K V)).set k4 v4 =
      ⟨3, [(k3, v3), (k1, v1), (k4, v4)]⟩ := by
    simp [LRUCache.set, mapGet, mapDelete, h14, h24, h34]
  refine ⟨?_, ?_, ?_, ?_⟩
  · rw [e1, e2, e3, e4]
  · rw [e1, e2, e3, g1]
  · rw [e1, e2, e3, g1, e5]
  · intro ops
    exact ((LRUCache.empty K V 3).runOps_size_le ops
      (by simp [LRUCache.empty])
      (by simp [LRUCache.empty, LRUCache.size])).1

theorem C5_lru_eviction_and_bound_witness :
    (((((LRUCache.empty Nat Nat 3).set 1 10).set 2 20).set 3 30).set 4 40 =
      ⟨3, [(2, 20), (3, 30), (4, 40)]⟩ ∧
    (((((LRUCache.empty Nat Nat 3).set 1 10).set 2 20).set 3 30).get 1).1 = some 10 ∧
    ((((((LRUCache.empty Nat Nat 3).set 1 10).set 2 20).set 3 30).get 1).2).set 4 40 =
      ⟨3, [(3, 30), (1, 10), (4, 40)]⟩ ∧
    ∀ ops : List (LRUOp Nat Nat), ((LRUCache.empty Nat Nat 3).runOps ops).size ≤ 3) :=
  C5_lru_eviction_and_bound Nat Nat 1 2 3 4 10 20 30 40
    (by decide) (by decide) (by decide) (by decide) (by decide) (by decide)

/-- C6 counterexample: insert `"a"` at time 0 into a TTL cache whose default
TTL is 100 ms; by time 200 the TTL has elapsed (a `get` at 200 reports the
entry absent), yet `has` — which never consults the TTL — still reports the
key as present, contradicting the claim that a read after expiry reports
absence through `has` as well. -/
theorem C6_counterexample_has_ignores_ttl :
    ((((TTLCache.empty String Nat 3 100).set 0 "a" 1 none).hasKey "a").1 = true) ∧
    ((((TTLCache.empty String Nat 3 100).set 0 "a" 1 none).get 200 "a").1 = none) ∧
    ((200 : Int) - (0 : Int) > ((100 : Nat) : Int)) := by
  refine ⟨rfl, rfl, by decide⟩

/-- C6 (amended): a `get` performed after an entry's (truthy) TTL has elapsed
deletes the entry and returns `undefined` — never the stale value — and
afterwards `has` reports the key absent; but `has` itself does not consult
the TTL, so before such a `get` an expired entry is still reported present
(see the counterexample). Second conjunct: `get` never returns a stale
value — a returned value always comes from an entry whose TTL is either
falsy (0) or not yet elapsed. -/
theorem C6_ttl_expiry_on_get :
    (∀ (K V : Type) [DecidableEq K] (c : TTLCache K V) (now : Int)
        (k : K) (e : CacheEntry V),
      (c.cache.entries.map Prod.fst).Nodup →
      mapGet c.cache.entries k = some e →
      e.ttl ≠ 0 →
      now - e.timestamp > (e.ttl : Int) →
      (c.get now k).1 = none ∧
      mapGet ((c.get now k).2).cache.entries k = none ∧
      (((c.get now k).2).hasKey k).1 = false) ∧
    (∀ (K V : Type) [DecidableEq K] (c : TTLCache K V) (now : Int)
        (k : K) (v : V),
      (c.get now k).1 = some v →
      ∃ e, mapGet c.cache.entries k = some e ∧ e.data = v ∧
        (e.ttl = 0 ∨ now - e.timestamp ≤ (e.ttl : Int))) := by
  constructor
  · intro K V inst c now k e hnd hget httl hage
    have hinner : c.cache.get k =
        (some e, ⟨c.cache.capacity, mapDelete c.cache.entries k ++ [(k, e)]⟩) := by
      unfold LRUCache.get
      rw [hget]
    have hdel : mapDelete (mapDelete c.cache.entries k ++ [(k, e)]) k =
        mapDelete c.cache.entries k := by
      rw [mapDelete_append_of_none _ (mapGet_mapDelete_self k hnd)]
      simp [mapDelete]
    have hst : c.get now k =
        (none, ⟨⟨c.cache.capacity, mapDelete c.cache.entries k⟩, c.defaultTTL⟩) := by
      unfold TTLCache.get
      rw [hinner]
      simp [httl, hage, LRUCache.del, hdel]
    refine ⟨by rw [hst], ?_, ?_⟩
    · rw [hst]
      exact mapGet_mapDelete_self k hnd
    · rw [hst]
      simp [TTLCache.hasKey, LRUCache.get, mapGet_mapDelete_self k hnd]
  · intro K V inst c now k v hv
    unfold TTLCache.get at hv
    cases hget : mapGet c.cache.entries k with
    | none =>
      have : c.cache.get k = (none, c.cache) := by
        unfold LRUCache.get
        rw [hget]
      rw [this] at hv
      simp at hv
    | some e =>
      have : c.cache.get k =
          (some e, ⟨c.cache.capacity, mapDelete c.cache.entries k ++ [(k, e)]⟩) := by
        unfold LRUCache.get
        rw [hget]
      rw [this] at hv
      by_cases httl : e.ttl = 0
      · simp [httl] at hv
        exact ⟨e, rfl, hv, Or.inl httl⟩
      · by_cases hage : now - e.timestamp > (e.ttl : Int)
        · simp [httl, hage] at hv
        · simp [httl, hage] at hv
          exact ⟨e, rfl, hv, Or.inr (by omega)⟩

theorem C6_ttl_expiry_on_get_witness :
    (let c : TTLCache String Nat :=
      ⟨⟨3, [("a", ⟨7, 0, 100⟩)]⟩, 100⟩
     (c.get 200 "a").1 = none ∧
     mapGet ((c.get 200 "a").2).cache.entries "a" = none ∧
     (((c.get 200 "a").2).hasKey "a").1 = false) ∧
    (∃ e, mapGet (⟨⟨3, [("a", ⟨7, 0, 100⟩)]⟩, 100⟩ : TTLCache String Nat).cache.entries "a" =
        some e ∧ e.data = 7 ∧
        (e.ttl = 0 ∨ (50 : Int) - e.timestamp ≤ (e.ttl : Int))) := by
  constructor
  · exact C6_ttl_expiry_on_get.1 String Nat ⟨⟨3, [("a", ⟨7, 0, 100⟩)]⟩, 100⟩ 200 "a"
      ⟨7, 0, 100⟩ (by simp) rfl (by decide) (by decide)
  · exact C6_ttl_expiry_on_get.2 String Nat ⟨⟨3, [("a", ⟨7, 0, 100⟩)]⟩, 100⟩ 50 "a" 7 rfl

/-- C10: constructing a `RestDataProvider` with a zero `timeout`,
`retryCount`, `retryDelay`, `cacheTTL` or `cacheSize` silently yields the
built-in defaults (5000, 3, 1000, 3600000, 50) because the options are
defaulted with the truthiness operator `||`; likewise `TTLCache.set` with
`ttl = 0` stores the cache's default TTL — indistinguishable from passing no
TTL at all. -/
theorem C10_zero_options_become_defaults (c : RestProviderConfig)
    (ht : c.timeout = some 0) (hr : c.retryCount = some 0)
    (hd : c.retryDelay = some 0) (hc : c.cacheTTL = some 0)
    (hs : c.cacheSize = some 0) :
    (mkRestProviderConfig c).timeout = 5000 ∧
    (mkRestProviderConfig c).retryCount = 3 ∧
    (mkRestProviderConfig c).retryDelay = 1000 ∧
    (mkRestProviderConfig c).cacheTTL = 3600000 ∧
    (mkRestProviderConfig c).cacheSize = 50 ∧
    (∀ (K V : Type) [DecidableEq K] (st : TTLCache K V) (now : Int)
        (k : K) (v : V),
      TTLCache.set st now k v (some 0) = TTLCache.set st now k v none) := by
  refine ⟨?_, ?_, ?_, ?_, ?_, ?_⟩
  · simp [mkRestProviderConfig, ht, jsOrNat]
  · simp [mkRestProviderConfig, hr, jsOrNat]
  · simp [mkRestProviderConfig, hd, jsOrNat]
  · simp [mkRestProviderConfig, hc, jsOrNat]
  · simp [mkRestProviderConfig, hs, jsOrNat]
  · intro K V _inst st now k v
    rfl

theorem C10_zero_options_become_defaults_witness :
    (mkRestProviderConfig
        ⟨none, some 0, some 0, some 0, none, some 0, some 0, none⟩).timeout = 5000 ∧
    (mkRestProviderConfig
        ⟨none, some 0, some 0, some 0, none, some 0, some 0, none⟩).retryCount = 3 ∧
    (mkRestProviderConfig
        ⟨none, some 0, some 0, some 0, none, some 0, some 0, none⟩).retryDelay = 1000 ∧
    (mkRestProviderConfig
        ⟨none, some 0, some 0, some 0, none, some 0, some 0, none⟩).cacheTTL = 3600000 ∧
    (mkRestProviderConfig
        ⟨none, some 0, some 0, some 0, none, some 0, some 0, none⟩).cacheSize = 50 ∧
    (∀ (K V : Type) [DecidableEq K] (st : TTLCache K V) (now : Int)
        (k : K) (v : V),
      TTLCache.set st now k v (some 0) = TTLCache.set st now k v none) :=
  C10_zero_options_become_defaults
    ⟨none, some 0, some 0, some 0, none, some 0, some 0, none⟩
    rfl rfl rfl rfl rfl

/-! ### Fuel independence and natural equations for the resolver walks -/

theorem valueSize_pos (v : Value) : 1 ≤ valueSize v := by
  cases v <;> simp [valueSize]

theorem mergeValF_congr_of (n m : Nat) (o : Option Value) (v : Value)
    (h : ∀ tf vf, v = .obj vf → o = some (.obj tf) →
      deepMergeF n tf vf = deepMergeF m tf vf) :
    mergeValF n o v = mergeValF m o v := by
  cases v with
  | obj vf =>
    cases o with
    | none => simp [mergeValF]
    | some w =>
      cases w with
      | obj tf => simp only [mergeValF]; rw [h tf vf rfl rfl]
      | str s => simp [mergeValF]
      | num x => simp [mergeValF]
      | bool b => simp [mergeValF]
      | null => simp [mergeValF]
      | arr xs => simp [mergeValF]
      | funcall nm args => simp [mergeValF]
  | str s => cases o with
    | none => simp [mergeValF]
    | some w => cases w <;> simp [mergeValF]
  | num x => cases o with
    | none => simp [mergeValF]
    | some w => cases w <;> simp [mergeValF]
  | bool b => cases o with
    | none => simp [mergeValF]
    | some w => cases w <;> simp [mergeValF]
  | null => cases o with
    | none => simp [mergeValF]
    | some w => cases w <;> simp [mergeValF]
  | arr xs => cases o with
    | none => simp [mergeValF]
    | some w => cases w <;> simp [mergeValF]
  | funcall nm args => cases o with
    | none => simp [mergeValF]
    | some w => cases w <;> simp [mergeValF]

theorem deepMergeF_congr :
    ∀ (f1 : Nat) {f2 : Nat} {t s : Fields},
      fieldsSize s < f1 → fieldsSize s < f2 →
      deepMergeF f1 t s = deepMergeF f2 t s := by
  intro f1
  induction f1 using Nat.strong_induction_on with
  | _ f1 ih =>
    intro f2 t s h1 h2
    cases f1 with
    | zero => omega
    | succ n =>
      cases f2 with
      | zero => omega
      | succ m =>
        cases s with
        | nil => rfl
        | cons p rest =>
          obtain ⟨k, v⟩ := p
          have hv := valueSize_pos v
          simp only [fieldsSize] at h1 h2
          have hmv : mergeValF n (lookupKey t k) v = mergeValF m (lookupKey t k) v := by
            apply mergeValF_congr_of
            intro tf vf hveq _
            subst hveq
            simp only [valueSize] at h1 h2
            exact ih n (by omega) (by omega) (by omega)
          simp only [deepMergeF]
          rw [hmv]
          exact ih n (by omega) (by omega) (by omega)

theorem mergeValF_eq_mergeVal (fuel : Nat) (o : Option Value) (v : Value)
    (h : valueSize v ≤ fuel) : mergeValF fuel o v = mergeVal o v := by
  cases v with
  | obj vf =>
    cases o with
    | none => simp [mergeValF, mergeVal]
    | some w =>
      cases w with
      | obj tf =>
        simp only [mergeValF, mergeVal, deepMerge]
        simp only [valueSize] at h
        rw [@deepMergeF_congr fuel (fieldsSize vf + 1) tf vf (by omega) (by omega)]
      | str s => simp [mergeValF, mergeVal]
      | num x => simp [mergeValF, mergeVal]
      | bool b => simp [mergeValF, mergeVal]
      | null => simp [mergeValF, mergeVal]
      | arr xs => simp [mergeValF, mergeVal]
      | funcall nm args => simp [mergeValF, mergeVal]
  | str s => cases o with
    | none => simp [mergeValF, mergeVal]
    | some w => cases w <;> simp [mergeValF, mergeVal]
  | num x => cases o with
    | none => simp [mergeValF, mergeVal]
    | some w => cases w <;> simp [mergeValF, mergeVal]
  | bool b => cases o with
    | none => simp [mergeValF, mergeVal]
    | some w => cases w <;> simp [mergeValF, mergeVal]
  | null => cases o with
    | none => simp [mergeValF, mergeVal]
    | some w => cases w <;> simp [mergeValF, mergeVal]
  | arr xs => cases o with
    | none => simp [mergeValF, mergeVal]
    | some w => cases w <;> simp [mergeValF, mergeVal]
  | funcall nm args => cases o with
    | none => simp [mergeValF, mergeVal]
    | some w => cases w <;> simp [mergeValF, mergeVal]

theorem deepMerge_nilSource (t : Fields) : deepMerge t [] = t := rfl

theorem deepMerge_cons (t : Fields) (k : String) (v : Value) (rest : Fields) :
    deepMerge t ((k, v) :: rest) =
      deepMerge (setKey t k (mergeVal (lookupKey t k) v)) rest := by
  show deepMergeF (fieldsSize ((k, v) :: rest) + 1) t ((k, v) :: rest) = _
  have hv := valueSize_pos v
  simp only [deepMergeF]
  rw [mergeValF_eq_mergeVal _ _ _ (by simp only [fieldsSize]; omega)]
  apply deepMergeF_congr
  · simp only [fieldsSize]
    omega
  · omega

theorem resolveVarsF_congr (vars : List (String × Value)) :
    ∀ (f1 : Nat) {f2 : Nat} {skip : Bool} {s : Fields},
      fieldsSize s < f1 → fieldsSize s < f2 →
      resolveVarsF vars f1 skip s = resolveVarsF vars f2 skip s := by
  intro f1
  induction f1 using Nat.strong_induction_on with
  | _ f1 ih =>
    intro f2 skip s h1 h2
    cases f1 with
    | zero => omega
    | succ n =>
      cases f2 with
      | zero => omega
      | succ m =>
        cases s with
        | nil => rfl
        | cons p rest =>
          obtain ⟨k, v⟩ := p
          have hv := valueSize_pos v
          simp only [fieldsSize] at h1 h2
          have htail : resolveVarsF vars n skip rest = resolveVarsF vars m skip rest :=
            ih n (by omega) (by omega) (by omega)
          simp only [resolveVarsF]
          rw [htail]
          by_cases hmap : k = "map"
          · cases v with
            | obj mf =>
              have hh : resolveVarsF vars n true mf = resolveVarsF vars m true mf := by
                simp only [valueSize] at h1 h2
                exact ih n (by omega) (by omega) (by omega)
              simp [hmap, hh]
            | str s => rfl
            | num x => rfl
            | bool b => rfl
            | null => rfl
            | arr xs => rfl
            | funcall nm args => rfl
          · simp only [if_neg hmap]
            cases hskip : skip with
            | true => rfl
            | false =>
              cases v with
              | obj f =>
                have hh : resolveVarsF vars n false f = resolveVarsF vars m false f := by
                  simp only [valueSize] at h1 h2
                  exact ih n (by omega) (by omega) (by omega)
                simp [hmap, hh]
              | str s => rfl
              | num x => rfl
              | bool b => rfl
              | null => rfl
              | arr xs => rfl
              | funcall nm args => rfl

theorem resolveVars_nil (vars : List (String × Value)) (skip : Bool) :
    resolveVars vars skip [] = ([], []) := rfl

theorem resolveVars_cons (vars : List (String × Value)) (skip : Bool)
    (k : String) (v : Value) (rest : Fields) :
    resolveVars vars skip ((k, v) :: rest) =
      ((k, (resolveVarHead vars skip k v).1) :: (resolveVars vars skip rest).1,
        (resolveVarHead vars skip k v).2 ++ (resolveVars vars skip rest).2) := by
  have hv := valueSize_pos v
  show resolveVarsF vars (fieldsSize ((k, v) :: rest) + 1) skip ((k, v) :: rest) = _
  simp only [resolveVarsF]
  have htail : resolveVarsF vars (fieldsSize ((k, v) :: rest)) skip rest =
      resolveVars vars skip rest := by
    apply resolveVarsF_congr
    · simp only [fieldsSize]
      omega
    · omega
  rw [htail]
  have hhead :
      (if k = "map" then
        match v with
        | .obj mf =>
          let r := resolveVarsF vars (fieldsSize ((k, v) :: rest)) true mf
          (Value.obj r.1, r.2)
        | _ => (v, [])
      else if skip then (v, [])
      else
        match v with
        | .str s =>
          if jsStartsWith s "$." then (Value.str s, [])
          else if jsStartsWith s "$" then
            match mapGet vars (s.drop 1) with
            | some w => (w, [])
            | none =>
              (Value.str s,
                [⟨"Variable \"" ++ s ++ "\" not found", "VARIABLE_NOT_FOUND",
                  none, some k⟩])
          else (Value.str s, [])
        | .obj f =>
          let r := resolveVarsF vars (fieldsSize ((k, v) :: rest)) false f
          (Value.obj r.1, r.2)
        | .funcall nm args =>
          if jsStartsWith nm "$." then (Value.funcall nm args, [])
          else if jsStartsWith nm "$" then
            match mapGet vars (nm.drop 1) with
            | some (.str s') => (Value.funcall s' args, [])
            | some w =>
              (Value.obj [("type", .str "function"), ("name", w),
                ("args", .arr args)], [])
            | none =>
              (Value.funcall nm args,
                [⟨"Variable \"" ++ nm ++ "\" not found", "VARIABLE_NOT_FOUND",
                  none, some "name"⟩])
          else (Value.funcall nm args, [])
        | _ => (v, [])) = resolveVarHead vars skip k v := by
    unfold resolveVarHead
    by_cases hmap : k = "map"
    · subst hmap
      cases v with
      | obj mf =>
        have hh : resolveVarsF vars (fieldsSize (("map", Value.obj mf) :: rest)) true mf =
            resolveVars vars true mf := by
          apply resolveVarsF_congr
          · simp only [fieldsSize, valueSize]
            omega
          · omega
        simp [hh]
      | str s => rfl
      | num x => rfl
      | bool b => rfl
      | null => rfl
      | arr xs => rfl
      | funcall nm args => rfl
    · simp only [if_neg hmap]
      cases skip with
      | true => rfl
      | false =>
        cases v with
        | obj f =>
          have hh : resolveVarsF vars (fieldsSize ((k, Value.obj f) :: rest)) false f =
              resolveVars vars false f := by
            apply resolveVarsF_congr
            · simp only [fieldsSize, valueSize]
              omega
            · omega
          simp [hh]
        | str s => rfl
        | num x => rfl
        | bool b => rfl
        | null => rfl
        | arr xs => rfl
        | funcall nm args => rfl
  rw [hhead]

/-! ### Plain schemas and the merge characterization -/

theorem jsStartsWith_dollar_of_dollarDot {s : String}
    (h : jsStartsWith s "$." = true) : jsStartsWith s "$" = true := by
  unfold jsStartsWith at h ⊢
  cases hs : s.toList with
  | nil => rw [hs] at h; simp [charsPrefix] at h
  | cons c cs =>
    rw [hs] at h
    simp [charsPrefix] at h ⊢
    exact h.1

theorem mergeVal_none (v : Value) : mergeVal none v = v := by
  cases v <;> rfl

theorem lookupKey_eq_none_of_not_mem {t : Fields} {k : String}
    (h : k ∉ t.map Prod.fst) : lookupKey t k = none := by
  induction t with
  | nil => rfl
  | cons p rest ih =>
    obtain ⟨a, b⟩ := p
    simp only [List.map_cons, List.mem_cons] at h
    push_neg at h
    have ha : ¬ a = k := fun hh => h.1 hh.symm
    simp only [lookupKey, if_neg ha]
    exact ih h.2

theorem plainValue_of_lookupKey {t : Fields} {k : String} {v : Value}
    (hp : plainFieldsList t = true) (h : lookupKey t k = some v) :
    plainValue v = true := by
  induction t with
  | nil => simp [lookupKey] at h
  | cons p rest ih =>
    obtain ⟨a, b⟩ := p
    simp [plainFieldsList] at hp
    by_cases ha : a = k
    · simp [lookupKey, ha] at h
      subst h
      exact hp.1
    · simp [lookupKey, ha] at h
      exact ih hp.2 h

theorem plainFieldsList_setKey {t : Fields} {k : String} {v : Value}
    (hp : plainFieldsList t = true) (hv : plainValue v = true) :
    plainFieldsList (setKey t k v) = true := by
  induction t with
  | nil => simp [setKey, plainFieldsList, hv]
  | cons p rest ih =>
    obtain ⟨a, b⟩ := p
    simp [plainFieldsList] at hp
    by_cases ha : a = k
    · simp [setKey, ha, plainFieldsList, hv, hp.2]
    · simp [setKey, ha, plainFieldsList, hp.1]
      exact ih hp.2

theorem setKey_append_of_none {t : Fields} {k : String} (v : Value)
    (h : lookupKey t k = none) : setKey t k v = t ++ [(k, v)] := by
  induction t with
  | nil => simp [setKey]
  | cons p rest ih =>
    obtain ⟨a, b⟩ := p
    by_cases ha : a = k
    · simp [lookupKey, ha] at h
    · simp [lookupKey, ha] at h
      simp [setKey, ha, ih h]

theorem processEntry_of_plain {k : String} {v : Value}
    (hv : plainValue v = true) : processEntry k v = v := by
  unfold processEntry
  cases v with
  | funcall nm args => simp [plainValue] at hv
  | str s =>
    split
    · rfl
    · split <;> rfl
  | num x =>
    split
    · rfl
    · split <;> rfl
  | bool b =>
    split
    · rfl
    · split <;> rfl
  | null =>
    split
    · rfl
    · split <;> rfl
  | arr xs =>
    split
    · rfl
    · split <;> rfl
  | obj f =>
    split
    · rfl
    · split <;> rfl

theorem processSchema_of_plain {s : Fields}
    (hp : plainFieldsList s = true) : processSchema s = s := by
  induction s with
  | nil => rfl
  | cons p rest ih =>
    obtain ⟨k, v⟩ := p
    simp [plainFieldsList] at hp
    simp [processSchema] at ih ⊢
    exact ⟨processEntry_of_plain hp.1, ih hp.2⟩

theorem resolveVars_skip_id (vars : List (String × Value)) :
    ∀ (n : Nat) (fields : Fields), fieldsSize fields ≤ n →
      resolveVars vars true fields = (fields, []) := by
  intro n
  induction n using Nat.strong_induction_on with
  | _ n ih =>
    intro fields hsz
    cases fields with
    | nil => rfl
    | cons p rest =>
      obtain ⟨k, v⟩ := p
      have hv := valueSize_pos v
      simp only [fieldsSize] at hsz
      rw [resolveVars_cons]
      have htail : resolveVars vars true rest = (rest, []) := by
        cases n with
        | zero => omega
        | succ n' => exact ih n' (by omega) rest (by omega)
      have hhead : resolveVarHead vars true k v = (v, []) := by
        unfold resolveVarHead
        by_cases hmap : k = "map"
        · simp only [hmap, if_pos rfl]
          cases v with
          | obj mf =>
            have : resolveVars vars true mf = (mf, []) := by
              cases n with
              | zero => omega
              | succ n' =>
                simp only [valueSize] at hsz
                exact ih n' (by omega) mf (by omega)
            simp [this]
          | str s => rfl
          | num x => rfl
          | bool b => rfl
          | null => rfl
          | arr xs => rfl
          | funcall nm args => rfl
        · simp [if_neg hmap]
      rw [htail, hhead]
      rfl

theorem resolveVars_plain_id (vars : List (String × Value)) :
    ∀ (n : Nat) (fields : Fields), fieldsSize fields ≤ n →
      plainFieldsList fields = true →
      resolveVars vars false fields = (fields, []) := by
  intro n
  induction n using Nat.strong_induction_on with
  | _ n ih =>
    intro fields hsz hp
    cases fields with
    | nil => rfl
    | cons p rest =>
      obtain ⟨k, v⟩ := p
      have hv := valueSize_pos v
      simp only [fieldsSize] at hsz
      simp [plainFieldsList] at hp
      rw [resolveVars_cons]
      have htail : resolveVars vars false rest = (rest, []) := by
        cases n with
        | zero => omega
        | succ n' => exact ih n' (by omega) rest (by omega) hp.2
      have hhead : resolveVarHead vars false k v = (v, []) := by
        unfold resolveVarHead
        by_cases hmap : k = "map"
        · simp only [hmap, if_pos rfl]
          cases v with
          | obj mf =>
            have : resolveVars vars true mf = (mf, []) := by
              cases n with
              | zero => omega
              | succ n' =>
                simp only [valueSize] at hsz
                exact resolveVars_skip_id vars n' mf (by omega)
            simp [this]
          | str s => rfl
          | num x => rfl
          | bool b => rfl
          | null => rfl
          | arr xs => rfl
          | funcall nm args => rfl
        · simp only [if_neg hmap, if_neg (by simp : ¬ (false = true))]
          cases v with
          | str s =>
            simp only [plainValue] at hp
            by_cases hdot : jsStartsWith s "$." = true
            · simp [hdot]
            · have hnd : jsStartsWith s "$" = false := by
                rcases Bool.or_eq_true_iff.mp hp.1 with h1 | h1
                · simpa using h1
                · exact absurd h1 hdot
              simp [hdot, hnd]
          | obj f =>
            have : resolveVars vars false f = (f, []) := by
              cases n with
              | zero => omega
              | succ n' =>
                simp only [valueSize] at hsz
                simp only [plainValue] at hp
                exact ih n' (by omega) f (by omega) hp.1
            simp [this]
          | num x => rfl
          | bool b => rfl
          | null => rfl
          | arr xs => rfl
          | funcall nm args => simp [plainValue] at hp
      rw [htail, hhead]
      rfl

theorem lookupKey_append_none {xs : Fields} {k : String} (ys : Fields)
    (h : lookupKey xs k = none) : lookupKey (xs ++ ys) k = lookupKey ys k := by
  induction xs with
  | nil => simp
  | cons p rest ih =>
    obtain ⟨a, b⟩ := p
    by_cases ha : a = k
    · simp [lookupKey, ha] at h
    · simp only [lookupKey, if_neg ha] at h
      simp only [List.cons_append, lookupKey, if_neg ha]
      exact ih h

theorem lookupKey_deepMerge :
    ∀ (s t : Fields) (k : String), (s.map Prod.fst).Nodup →
      lookupKey (deepMerge t s) k =
        match lookupKey s k with
        | none => lookupKey t k
        | some v => some (mergeVal (lookupKey t k) v) := by
  intro s
  induction s with
  | nil =>
    intro t k _
    simp [deepMerge_nilSource, lookupKey]
  | cons p rest ih =>
    intro t k hnd
    obtain ⟨k₀, v₀⟩ := p
    rw [List.map_cons, List.nodup_cons] at hnd
    rw [deepMerge_cons]
    rw [ih _ k hnd.2]
    by_cases hk : k₀ = k
    · subst hk
      have hrest : lookupKey rest k₀ = none :=
        lookupKey_eq_none_of_not_mem hnd.1
    
      simp [lookupKey, hrest, lookupKey_setKey_self]
    · simp only [lookupKey, if_neg hk]
      rw [lookupKey_setKey_other _ _ _ _ (fun hh => hk hh.symm)]

theorem deepMerge_disjoint :
    ∀ (s t : Fields), (s.map Prod.fst).Nodup →
      (∀ k ∈ s.map Prod.fst, lookupKey t k = none) →
      deepMerge t s = t ++ s := by
  intro s
  induction s with
  | nil =>
    intro t _ _
    simp [deepMerge_nilSource]
  | cons p rest ih =>
    intro t hnd hdis
    obtain ⟨k₀, v₀⟩ := p
    rw [List.map_cons, List.nodup_cons] at hnd
    have h0 : lookupKey t k₀ = none := hdis k₀ (by simp)
    rw [deepMerge_cons, h0, mergeVal_none, setKey_append_of_none _ h0]
    rw [ih (t ++ [(k₀, v₀)]) hnd.2]
    · simp
    · intro k hk
      have hne : k ≠ k₀ := by
        intro hh
        subst hh
        exact hnd.1 hk
      cases hl : lookupKey (t ++ [(k₀, v₀)]) k with
      | none => rfl
      | some w =>
        exfalso
        have := hdis k (by simp [hk])
        rw [lookupKey_append_none _ this] at hl
        simp [lookupKey] at hl
        exact hne hl.1.symm

theorem plainFieldsList_deepMerge :
    ∀ (n : Nat) (s t : Fields), fieldsSize s ≤ n →
      plainFieldsList t = true → plainFieldsList s = true →
      plainFieldsList (deepMerge t s) = true := by
  intro n
  induction n using Nat.strong_induction_on with
  | _ n ih =>
    intro s t hsz hpt hps
    cases s with
    | nil => simpa [deepMerge_nilSource]
    | cons p rest =>
      obtain ⟨k₀, v₀⟩ := p
      have hv := valueSize_pos v₀
      simp only [fieldsSize] at hsz
      simp [plainFieldsList] at hps
      rw [deepMerge_cons]
      have hmv : plainValue (mergeVal (lookupKey t k₀) v₀) = true := by
        cases v₀ with
        | obj vf =>
          cases hl : lookupKey t k₀ with
          | none => simpa [mergeVal_none] using hps.1
          | some w =>
            cases w with
            | obj tf =>
              have hptf : plainValue (Value.obj tf) = true :=
                plainValue_of_lookupKey hpt hl
              simp only [mergeVal, plainValue]
              cases n with
              | zero => omega
              | succ n' =>
                apply ih n' (by omega) vf tf
                · simp only [valueSize] at hsz
                  omega
                · simpa [plainValue] using hptf
                · simpa [plainValue] using hps.1
            | str s => simpa [mergeVal] using hps.1
            | num x => simpa [mergeVal] using hps.1
            | bool b => simpa [mergeVal] using hps.1
            | null => simpa [mergeVal] using hps.1
            | arr xs => simpa [mergeVal] using hps.1
            | funcall nm args => simpa [mergeVal] using hps.1
        | str s =>
          cases hl : lookupKey t k₀ with
          | none => simpa [mergeVal_none] using hps.1
          | some w => cases w <;> simpa [mergeVal] using hps.1
        | num x =>
          cases hl : lookupKey t k₀ with
          | none => simpa [mergeVal_none] using hps.1
          | some w => cases w <;> simpa [mergeVal] using hps.1
        | bool b =>
          cases hl : lookupKey t k₀ with
          | none => simpa [mergeVal_none] using hps.1
          | some w => cases w <;> simpa [mergeVal] using hps.1
        | null =>
          cases hl : lookupKey t k₀ with
          | none => simpa [mergeVal_none] using hps.1
          | some w => cases w <;> simpa [mergeVal] using hps.1
        | arr xs =>
          cases hl : lookupKey t k₀ with
          | none => simpa [mergeVal_none] using hps.1
          | some w => cases w <;> simpa [mergeVal] using hps.1
        | funcall nm args => simp [plainValue] at hps
      cases n with
      | zero => omega
      | succ n' =>
        apply ih n' (by omega) rest _ (by omega)
        · exact plainFieldsList_setKey hpt hmv
        · exact hps.2

/-! ### Resolver termination: the supplied fuel never runs out -/

theorem resolveSchemaF_isSome (reg : List (String × Fields))
    (vars : List (String × Value)) :
    ∀ (fuel : Nat) (schema : Fields) (visited path : List String),
      ((reg.map Prod.fst).toFinset \ visited.toFinset).card < fuel →
      (resolveSchemaF reg vars fuel schema visited path).isSome := by
  intro fuel
  induction fuel using Nat.strong_induction_on with
  | _ fuel ih =>
    intro schema visited path hcard
    cases fuel with
    | zero => omega
    | succ n =>
      simp only [resolveSchemaF]
      cases hext : lookupKey schema "extends" with
      | none => simp
      | some v =>
        by_cases htr : valueTruthy v
        · cases v with
          | str nm =>
            simp only [htr, if_pos rfl]
            cases hreg : mapGet reg nm with
            | none => simp [hreg]
            | some base =>
              by_cases hvis : nm ∈ visited
              · simp [hreg, hvis]
              · have hmem : nm ∈ (reg.map Prod.fst).toFinset \ visited.toFinset := by
                  rw [Finset.mem_sdiff]
                  constructor
                  · rw [List.mem_toFinset]
                    exact mapGet_some_mem_keys hreg
                  · rw [List.mem_toFinset]
                    exact hvis
                have hlt :
                    ((reg.map Prod.fst).toFinset \ (nm :: visited).toFinset).card < n := by
                  have : (nm :: visited).toFinset = insert nm visited.toFinset := by
                    simp
                  rw [this, Finset.sdiff_insert]
                  have hc := Finset.card_erase_of_mem (by
                    exact Finset.mem_sdiff.mpr (Finset.mem_sdiff.mp hmem))
                  rw [hc]
                  have hpos : 0 < ((reg.map Prod.fst).toFinset \ visited.toFinset).card :=
                    Finset.card_pos.mpr ⟨nm, hmem⟩
                  omega
                have hrec := ih n (by omega) base (nm :: visited) (path ++ [nm]) hlt
                cases hres : resolveSchemaF reg vars n base (nm :: visited) (path ++ [nm]) with
                | none => rw [hres] at hrec; simp at hrec
                | some r =>
                  obtain ⟨cfg, deps, errs⟩ := r
                  simp [hreg, hvis, hres]
          | num x => simp [htr]
          | bool b => simp [htr]
          | null => simp [valueTruthy] at htr
          | arr xs => simp [htr]
          | obj f => simp [htr]
          | funcall nm args => simp [htr]
        · rw [Bool.not_eq_true] at htr
          simp [htr]

/-! ### One-level unfolding equations for `resolveSchema` -/

theorem resolveSchemaF_no_extends (reg : List (String × Fields))
    (vars : List (String × Value)) (fuel : Nat) (schema : Fields)
    (visited path : List String)
    (hext : lookupKey schema "extends" = none) :
    resolveSchemaF reg vars (fuel + 1) schema visited path =
      some ((resolveVars vars false (deepMerge [] (processSchema schema))).1, [],
        (resolveVars vars false (deepMerge [] (processSchema schema))).2) := by
  simp [resolveSchemaF, hext]

theorem resolveSchemaF_extends_descend (reg : List (String × Fields))
    (vars : List (String × Value)) (fuel : Nat) (schema : Fields)
    (visited path : List String) (nm : String) (base : Fields)
    (hext : lookupKey schema "extends" = some (.str nm)) (hnm : nm ≠ "")
    (hreg : mapGet reg nm = some base) (hvis : nm ∉ visited) :
    resolveSchemaF reg vars (fuel + 1) schema visited path =
      match resolveSchemaF reg vars fuel base (nm :: visited) (path ++ [nm]) with
      | none => none
      | some (baseCfg, deps, errs) =>
        some ((resolveVars vars false
            (deepMerge (deepMerge [] baseCfg) (processSchema schema))).1,
          nm :: deps,
          errs ++ (resolveVars vars false
            (deepMerge (deepMerge [] baseCfg) (processSchema schema))).2) := by
  have htr : valueTruthy (.str nm) = true := by simp [valueTruthy, hnm]
  cases hres : resolveSchemaF reg vars fuel base (nm :: visited) (path ++ [nm]) with
  | none => simp [resolveSchemaF, hext, htr, hreg, hvis, hres]
  | some r =>
    obtain ⟨cfg, deps, errs⟩ := r
    simp [resolveSchemaF, hext, htr, hreg, hvis, hres]

theorem resolveSchemaF_extends_circular (reg : List (String × Fields))
    (vars : List (String × Value)) (fuel : Nat) (schema : Fields)
    (visited path : List String) (nm : String) (base : Fields)
    (hext : lookupKey schema "extends" = some (.str nm)) (hnm : nm ≠ "")
    (hreg : mapGet reg nm = some base) (hvis : nm ∈ visited) :
    resolveSchemaF reg vars (fuel + 1) schema visited path =
      some ((resolveVars vars false (deepMerge [] (processSchema schema))).1, [],
        ⟨"Circular dependency detected: " ++ String.intercalate " -> " path ++
            " -> " ++ nm, "CIRCULAR_DEPENDENCY", some nm, none⟩ ::
          (resolveVars vars false (deepMerge [] (processSchema schema))).2) := by
  have htr : valueTruthy (.str nm) = true := by simp [valueTruthy, hnm]
  simp [resolveSchemaF, hext, htr, hreg, hvis]

/-- C2: for every registry with a three-schema `extends` cycle
(A extends B, B extends C, C extends A, names distinct and non-empty),
resolution of A terminates — the fuelled recursion completes and `resolve`
returns a result (`some …`) — and the error list's first entry is a
`CIRCULAR_DEPENDENCY` error whose message spells out the inheritance chain
`B -> C -> A -> B`; in particular at least one such error is present. -/
theorem C2_cycle_terminates_with_error (reg : List (String × Fields))
    (vars : List (String × Value)) (a b c : String) (sa sb sc : Fields)
    (hab : a ≠ b) (hbc : b ≠ c) (hac : a ≠ c)
    (hna : a ≠ "") (hnb : b ≠ "") (hnc : c ≠ "")
    (hra : mapGet reg a = some sa) (hrb : mapGet reg b = some sb)
    (hrc : mapGet reg c = some sc)
    (hea : lookupKey sa "extends" = some (.str b))
    (heb : lookupKey sb "extends" = some (.str c))
    (hec : lookupKey sc "extends" = some (.str a)) :
    ∃ r, Resolver.resolve reg vars sa = some r ∧
      r.errors.head? = some
        ⟨"Circular dependency detected: " ++
            String.intercalate " -> " [b, c, a] ++ " -> " ++ b,
          "CIRCULAR_DEPENDENCY", some b, none⟩ ∧
      ∃ e ∈ r.errors, e.code = "CIRCULAR_DEPENDENCY" ∧
        e.message = "Circular dependency detected: " ++
          String.intercalate " -> " [b, c, a] ++ " -> " ++ b := by
  have hlen : 3 ≤ reg.length := by
    have hsub : ({a, b, c} : Finset String) ⊆ (reg.map Prod.fst).toFinset := by
      intro x hx
      simp only [Finset.mem_insert, Finset.mem_singleton] at hx
      rcases hx with h | h | h <;> subst h <;> rw [List.mem_toFinset]
      · exact mapGet_some_mem_keys hra
      · exact mapGet_some_mem_keys hrb
      · exact mapGet_some_mem_keys hrc
    have hcard : ({a, b, c} : Finset String).card = 3 := by
      rw [Finset.card_insert_of_not_mem (by simp [hab, hac]),
        Finset.card_insert_of_not_mem (by simp [hbc]), Finset.card_singleton]
    calc (3 : Nat) = ({a, b, c} : Finset String).card := hcard.symm
      _ ≤ (reg.map Prod.fst).toFinset.card := Finset.card_le_card hsub
      _ ≤ (reg.map Prod.fst).length := (reg.map Prod.fst).toFinset_card_le
      _ = reg.length := by simp
  obtain ⟨m, hm⟩ : ∃ m, reg.length + 1 = (((m + 1) + 1) + 1) + 1 :=
    ⟨reg.length - 3, by omega⟩
  have h4 := resolveSchemaF_extends_circular reg vars m sa [a, c, b] [b, c, a]
    b sb hea hnb hrb (by simp)
  have h3 := resolveSchemaF_extends_descend reg vars (m + 1) sc [c, b] [b, c]
    a sa hec hna hra (by
      intro hmem
      simp only [List.mem_cons, List.mem_singleton, List.not_mem_nil] at hmem
      rcases hmem with h | h | h
      · exact hac h
      · exact hab h
      · exact h)
  simp only [List.cons_append, List.nil_append] at h3
  rw [h4] at h3
  have h2 := resolveSchemaF_extends_descend reg vars ((m + 1) + 1) sb [b] [b]
    c sc heb hnc hrc (by
      intro hmem
      simp only [List.mem_cons, List.not_mem_nil] at hmem
      rcases hmem with h | h
      · exact hbc h.symm
      · exact h)
  simp only [List.cons_append, List.nil_append] at h2
  rw [h3] at h2
  have h1 := resolveSchemaF_extends_descend reg vars (((m + 1) + 1) + 1) sa [] []
    b sb hea hnb hrb (by simp)
  simp only [List.cons_append, List.nil_append] at h1
  rw [h2] at h1
  unfold Resolver.resolve
  rw [hm, h1]
  refine ⟨_, rfl, ?_, ?_⟩
  · simp
  · refine ⟨⟨"Circular dependency detected: " ++
        String.intercalate " -> " [b, c, a] ++ " -> " ++ b,
      "CIRCULAR_DEPENDENCY", some b, none⟩, ?_, rfl, rfl⟩
    simp

theorem C2_cycle_terminates_with_error_witness :
    ∃ r, Resolver.resolve
        [("A", [("extends", Value.str "B")]), ("B", [("extends", Value.str "C")]),
          ("C", [("extends", Value.str "A")])] []
        [("extends", Value.str "B")] = some r ∧
      r.errors.head? = some
        ⟨"Circular dependency detected: " ++
            String.intercalate " -> " ["B", "C", "A"] ++ " -> " ++ "B",
          "CIRCULAR_DEPENDENCY", some "B", none⟩ ∧
      ∃ e ∈ r.errors, e.code = "CIRCULAR_DEPENDENCY" ∧
        e.message = "Circular dependency detected: " ++
          String.intercalate " -> " ["B", "C", "A"] ++ " -> " ++ "B" :=
  C2_cycle_terminates_with_error
    [("A", [("extends", Value.str "B")]), ("B", [("extends", Value.str "C")]),
      ("C", [("extends", Value.str "A")])] []
    "A" "B" "C"
    [("extends", Value.str "B")] [("extends", Value.str "C")]
    [("extends", Value.str "A")]
    (by decide) (by decide) (by decide) (by decide) (by decide) (by decide)
    rfl rfl rfl rfl rfl rfl

/-- C1: resolving a child schema whose `extends` names a registered base
schema (itself without `extends`) yields a config whose value at every key
the child does not set is the base's value, and at every key the child sets
is the child's value — where a key holding objects on both sides is merged
key-by-key recursively (`mergeVal`/`deepMerge`) and every other value kind,
arrays included, is overwritten wholesale by the child. Stated for plain
schemas (no `$`-variable strings, which the resolver would substitute
afterwards, and no deferred function calls) with duplicate-free keys, the
only schemas on which merging is observable unchanged. -/
theorem C1_extends_deep_merge (reg : List (String × Fields))
    (vars : List (String × Value)) (child base : Fields) (n : String)
    (hne : n ≠ "") (hce : lookupKey child "extends" = some (.str n))
    (hreg : mapGet reg n = some base)
    (hbe : lookupKey base "extends" = none)
    (hpc : plainFieldsList child = true) (hpb : plainFieldsList base = true)
    (hndc : (child.map Prod.fst).Nodup) (hndb : (base.map Prod.fst).Nodup) :
    ∃ r, Resolver.resolve reg vars child = some r ∧
      (∀ k, lookupKey child k = none → lookupKey r.config k = lookupKey base k) ∧
      (∀ k v, lookupKey child k = some v →
        lookupKey r.config k = some (mergeVal (lookupKey base k) v)) := by
  have hlen : 1 ≤ reg.length := by
    have := mapGet_some_mem_keys hreg
    cases reg with
    | nil => simp at this
    | cons p rest => simp
  obtain ⟨m, hm⟩ : ∃ m, reg.length + 1 = (m + 1) + 1 := ⟨reg.length - 1, by omega⟩
  -- the base resolves to itself
  have hbase : resolveSchemaF reg vars (m + 1) base [n] [n] =
      some (base, [], []) := by
    rw [resolveSchemaF_no_extends reg vars m base [n] [n] hbe]
    rw [processSchema_of_plain hpb]
    rw [deepMerge_disjoint base [] hndb (by intro k _; rfl)]
    rw [List.nil_append]
    rw [resolveVars_plain_id vars (fieldsSize base) base (by omega) hpb]
  -- the child level
  have hchild := resolveSchemaF_extends_descend reg vars (m + 1) child [] []
    n base hce hne hreg (by simp)
  simp only [List.nil_append] at hchild
  rw [hbase] at hchild
  simp only at hchild
  rw [deepMerge_disjoint base [] hndb (by intro k _; rfl)] at hchild
  rw [List.nil_append, processSchema_of_plain hpc] at hchild
  have hplainm : plainFieldsList (deepMerge base child) = true :=
    plainFieldsList_deepMerge (fieldsSize child) child base (by omega) hpb hpc
  rw [resolveVars_plain_id vars (fieldsSize (deepMerge base child))
    (deepMerge base child) (by omega) hplainm] at hchild
  refine ⟨⟨deepMerge base child, [n], []⟩, ?_, ?_, ?_⟩
  · unfold Resolver.resolve
    rw [hm, hchild]
    rfl
  · intro k hk
    have := lookupKey_deepMerge child base k hndc
    rw [hk] at this
    exact this
  · intro k v hk
    have := lookupKey_deepMerge child base k hndc
    rw [hk] at this
    exact this

theorem C1_extends_deep_merge_witness :
    ∃ r, Resolver.resolve
        [("base",
          [("type", Value.str "bar"),
            ("options", Value.obj
              [("responsive", Value.bool true),
                ("scales", Value.obj
                  [("y", Value.obj [("beginAtZero", Value.bool true)])])]),
            ("colors", Value.arr [Value.str "red", Value.str "green"])])] []
        [("extends", Value.str "base"),
          ("options", Value.obj
            [("scales", Value.obj
              [("x", Value.obj [("display", Value.bool false)])])]),
          ("colors", Value.arr [Value.str "blue"])] = some r ∧
      (∀ k, lookupKey
          [("extends", Value.str "base"),
            ("options", Value.obj
              [("scales", Value.obj
                [("x", Value.obj [("display", Value.bool false)])])]),
            ("colors", Value.arr [Value.str "blue"])] k = none →
        lookupKey r.config k = lookupKey
          [("type", Value.str "bar"),
            ("options", Value.obj
              [("responsive", Value.bool true),
                ("scales", Value.obj
                  [("y", Value.obj [("beginAtZero", Value.bool true)])])]),
            ("colors", Value.arr [Value.str "red", Value.str "green"])] k) ∧
      (∀ k v, lookupKey
          [("extends", Value.str "base"),
            ("options", Value.obj
              [("scales", Value.obj
                [("x", Value.obj [("display", Value.bool false)])])]),
            ("colors", Value.arr [Value.str "blue"])] k = some v →
        lookupKey r.config k = some (mergeVal (lookupKey
          [("type", Value.str "bar"),
            ("options", Value.obj
              [("responsive", Value.bool true),
                ("scales", Value.obj
                  [("y", Value.obj [("beginAtZero", Value.bool true)])])]),
            ("colors", Value.arr [Value.str "red", Value.str "green"])] k) v)) :=
  C1_extends_deep_merge
    [("base",
      [("type", Value.str "bar"),
        ("options", Value.obj
          [("responsive", Value.bool true),
            ("scales", Value.obj
              [("y", Value.obj [("beginAtZero", Value.bool true)])])]),
        ("colors", Value.arr [Value.str "red", Value.str "green"])])] []
    [("extends", Value.str "base"),
      ("options", Value.obj
        [("scales", Value.obj
          [("x", Value.obj [("display", Value.bool false)])])]),
      ("colors", Value.arr [Value.str "blue"])]
    [("type", Value.str "bar"),
      ("options", Value.obj
        [("responsive", Value.bool true),
          ("scales", Value.obj
            [("y", Value.obj [("beginAtZero", Value.bool true)])])]),
      ("colors", Value.arr [Value.str "red", Value.str "green"])]
    "base" (by decide) rfl rfl rfl (by decide) (by decide)
    (by decide) (by decide)

theorem lookupKey_map_entries (f : String → Value → Value) :
    ∀ (s : Fields) (k : String),
      lookupKey (s.map (fun p => (p.1, f p.1 p.2))) k =
        (lookupKey s k).map (f k) := by
  intro s
  induction s with
  | nil => intro k; rfl
  | cons p rest ih =>
    intro k
    obtain ⟨a, b⟩ := p
    by_cases ha : a = k
    · subst ha
      simp [lookupKey]
    · simp [lookupKey, ha, ih]


/-! ### One variable-resolution pass, characterized -/

/-- One `resolveVariables` pass (over any nested config) computes exactly
the spec-side substitution and error list. Stated over a strong-induction
bound on `fieldsSize`. -/
theorem resolveVars_spec (vars : List (String × Value)) :
    ∀ (n : Nat) (s : Fields), fieldsSize s ≤ n →
      resolveVars vars false s =
        (specSubstFields vars s, specErrsFields vars s) := by
  intro n
  induction n using Nat.strong_induction_on with
  | _ n ih =>
    intro s hsz
    cases s with
    | nil => rfl
    | cons p rest =>
      obtain ⟨k, v⟩ := p
      have hv := valueSize_pos v
      simp only [fieldsSize] at hsz
      rw [resolveVars_cons]
      have htail : resolveVars vars false rest =
          (specSubstFields vars rest, specErrsFields vars rest) := by
        cases n with
        | zero => omega
        | succ n' => exact ih n' (by omega) rest (by omega)
      have hhead : resolveVarHead vars false k v =
          ((if k = "map" then v else specSubstVal vars v),
            (if k = "map" then [] else specErrsVal vars k v)) := by
        unfold resolveVarHead
        by_cases hmap : k = "map"
        · simp only [hmap, if_pos rfl]
          cases v with
          | obj mf =>
            have hid : resolveVars vars true mf = (mf, []) := by
              cases n with
              | zero => omega
              | succ n' =>
                simp only [valueSize] at hsz
                exact resolveVars_skip_id vars n' mf (by omega)
            simp [hid]
          | str s => rfl
          | num x => rfl
          | bool b => rfl
          | null => rfl
          | arr xs => rfl
          | funcall nm args => rfl
        · simp only [if_neg hmap, if_neg (by simp : ¬ (false = true))]
          cases v with
          | str s =>
            by_cases hdot : jsStartsWith s "$." = true
            · simp [specSubstVal, specErrsVal, hdot, hmap]
            · by_cases hdol : jsStartsWith s "$" = true
              · cases hmg : mapGet vars (s.drop 1) with
                | some w => simp [specSubstVal, specErrsVal, hdot, hdol, hmg, hmap]
                | none => simp [specSubstVal, specErrsVal, hdot, hdol, hmg, hmap]
              · simp [specSubstVal, specErrsVal, hdot, hdol, hmap]
          | obj f =>
            have hrec : resolveVars vars false f =
                (specSubstFields vars f, specErrsFields vars f) := by
              cases n with
              | zero => omega
              | succ n' =>
                simp only [valueSize] at hsz
                exact ih n' (by omega) f (by omega)
            simp [specSubstVal, specErrsVal, hrec, hmap]
          | funcall nm args =>
            by_cases hdot : jsStartsWith nm "$." = true
            · simp [specSubstVal, specErrsVal, hdot, hmap]
            · by_cases hdol : jsStartsWith nm "$" = true
              · cases hmg : mapGet vars (nm.drop 1) with
                | some w =>
                  cases w <;>
                    simp [specSubstVal, specErrsVal, hdot, hdol, hmg, hmap]
                | none => simp [specSubstVal, specErrsVal, hdot, hdol, hmg, hmap]
              · simp [specSubstVal, specErrsVal, hdot, hdol, hmap]
          | num x => rfl
          | bool b => rfl
          | null => rfl
          | arr xs => rfl
      rw [htail, hhead]
      simp [specSubstFields, specErrsFields]

/-- `specSubstFields` is an entrywise map over the config. -/
theorem specSubstFields_eq_map (vars : List (String × Value)) :
    ∀ s : Fields,
      specSubstFields vars s =
        s.map (fun p =>
          (p.1, if p.1 = "map" then p.2 else specSubstVal vars p.2)) := by
  intro s
  induction s with
  | nil => rfl
  | cons p rest ih =>
    obtain ⟨a, b⟩ := p
    simp [specSubstFields, ih]

/-- C3 counterexample: registry `{B ↦ {color: "$missing"}}`, empty variable
set, child `{extends: "B"}`. The base level records a `VARIABLE_NOT_FOUND`
for `color`, and the child level re-scans the merged config and records a
second identical error — two errors, not the claimed "exactly one ...
including when the schema extends a base schema". -/
theorem C3_counterexample_two_errors_through_extends :
    Resolver.resolve [("B", [("color", Value.str "$missing")])] []
        [("extends", Value.str "B")] =
      some ⟨[("color", Value.str "$missing"), ("extends", Value.str "B")], ["B"],
        [⟨"Variable \"$missing\" not found", "VARIABLE_NOT_FOUND", none,
            some "color"⟩,
          ⟨"Variable \"$missing\" not found", "VARIABLE_NOT_FOUND", none,
            some "color"⟩]⟩ ∧
    (Resolver.resolve [("B", [("color", Value.str "$missing")])] []
        [("extends", Value.str "B")]).map
      (fun r => (r.errors.filter
        (fun e => e.code = "VARIABLE_NOT_FOUND")).length) = some 2 := by
  constructor
  · rfl
  · rfl


/-- C3 (amended): `resolveSchema` re-runs the variable scan at every level
of an `extends` chain, so an inherited unmatched reference is reported once
per level, not exactly once (see the counterexample). Within one
`resolveVariables` pass the claim holds in full, over arbitrarily nested
configs: the pass computes exactly the spec-side substitution and error
list, in which every unmatched `$`-reference (a `$`-prefixed, non-`$.`
string outside `map` — including nested occurrences and the `name` of a
function-call literal) stays literal and contributes exactly one
`VARIABLE_NOT_FOUND` singleton, `$.`-prefixed JSON-path strings are left
untouched with no error, and the `map` entry is never substituted. -/
theorem C3_variable_resolution_single_pass :
    (∀ (vars : List (String × Value)) (s : Fields),
      resolveVars vars false s =
        (specSubstFields vars s, specErrsFields vars s)) ∧
    (∀ (vars : List (String × Value)) (s : Fields) (k sref : String),
      k ≠ "map" → lookupKey s k = some (.str sref) →
      jsStartsWith sref "$" = true → jsStartsWith sref "$." = false →
      mapGet vars (sref.drop 1) = none →
      lookupKey (resolveVars vars false s).1 k = some (.str sref) ∧
      specErrsVal vars k (.str sref) =
        [⟨"Variable \"" ++ sref ++ "\" not found", "VARIABLE_NOT_FOUND",
          none, some k⟩]) ∧
    (∀ (vars : List (String × Value)) (s : Fields) (k sref : String),
      lookupKey s k = some (.str sref) → jsStartsWith sref "$." = true →
      lookupKey (resolveVars vars false s).1 k = some (.str sref) ∧
      specErrsVal vars k (.str sref) = []) ∧
    (∀ (vars : List (String × Value)) (s : Fields) (v : Value),
      lookupKey s "map" = some v →
      lookupKey (resolveVars vars false s).1 "map" = some v) := by
  have hchar : ∀ (vars : List (String × Value)) (s : Fields),
      resolveVars vars false s =
        (specSubstFields vars s, specErrsFields vars s) :=
    fun vars s => resolveVars_spec vars (fieldsSize s) s (le_refl _)
  have hlook : ∀ (vars : List (String × Value)) (s : Fields) (k : String),
      lookupKey (resolveVars vars false s).1 k =
        (lookupKey s k).map
          (fun v => if k = "map" then v else specSubstVal vars v) := by
    intro vars s k
    rw [hchar vars s]
    simp only
    rw [specSubstFields_eq_map vars s]
    exact lookupKey_map_entries
      (fun k v => if k = "map" then v else specSubstVal vars v) s k
  refine ⟨hchar, ?_, ?_, ?_⟩
  · intro vars s k sref hkm hk hdol hdot hvar
    constructor
    · rw [hlook vars s k, hk]
      simp [hkm, specSubstVal, hdol, hdot, hvar]
    · simp [specErrsVal, hdol, hdot, hvar]
  · intro vars s k sref hk hdot
    constructor
    · rw [hlook vars s k, hk]
      by_cases hkm : k = "map"
      · simp [hkm]
      · simp [hkm, specSubstVal, hdot]
    · simp [specErrsVal, hdot]
  · intro vars s v hk
    rw [hlook vars s "map", hk]
    simp

theorem C3_variable_resolution_single_pass_witness :
    (lookupKey (resolveVars [("primary", Value.str "#336699")] false
        [("color", Value.str "$missing"),
          ("style", Value.obj [("stroke", Value.str "$primary"),
            ("fill", Value.str "$absent")]),
          ("source", Value.funcall "$fetch" [Value.str "/api"]),
          ("path", Value.str "$.data"),
          ("map", Value.obj [("labels", Value.str "$.months")])]).1
      "color" = some (Value.str "$missing") ∧
      specErrsVal [("primary", Value.str "#336699")] "color"
        (Value.str "$missing") =
      [⟨"Variable \"$missing\" not found", "VARIABLE_NOT_FOUND", none,
        some "color"⟩]) ∧
    (lookupKey (resolveVars [("primary", Value.str "#336699")] false
        [("color", Value.str "$missing"),
          ("style", Value.obj [("stroke", Value.str "$primary"),
            ("fill", Value.str "$absent")]),
          ("source", Value.funcall "$fetch" [Value.str "/api"]),
          ("path", Value.str "$.data"),
          ("map", Value.obj [("labels", Value.str "$.months")])]).1
      "path" = some (Value.str "$.data") ∧
      specErrsVal [("primary", Value.str "#336699")] "path"
        (Value.str "$.data") = []) ∧
    (lookupKey (resolveVars [("primary", Value.str "#336699")] false
        [("color", Value.str "$missing"),
          ("style", Value.obj [("stroke", Value.str "$primary"),
            ("fill", Value.str "$absent")]),
          ("source", Value.funcall "$fetch" [Value.str "/api"]),
          ("path", Value.str "$.data"),
          ("map", Value.obj [("labels", Value.str "$.months")])]).1
      "map" = some (Value.obj [("labels", Value.str "$.months")])) ∧
    resolveVars [("primary", Value.str "#336699")] false
        [("color", Value.str "$missing"),
          ("style", Value.obj [("stroke", Value.str "$primary"),
            ("fill", Value.str "$absent")]),
          ("source", Value.funcall "$fetch" [Value.str "/api"]),
          ("path", Value.str "$.data"),
          ("map", Value.obj [("labels", Value.str "$.months")])] =
      (specSubstFields [("primary", Value.str "#336699")]
        [("color", Value.str "$missing"),
          ("style", Value.obj [("stroke", Value.str "$primary"),
            ("fill", Value.str "$absent")]),
          ("source", Value.funcall "$fetch" [Value.str "/api"]),
          ("path", Value.str "$.data"),
          ("map", Value.obj [("labels", Value.str "$.months")])],
        specErrsFields [("primary", Value.str "#336699")]
        [("color", Value.str "$missing"),
          ("style", Value.obj [("stroke", Value.str "$primary"),
            ("fill", Value.str "$absent")]),
          ("source", Value.funcall "$fetch" [Value.str "/api"]),
          ("path", Value.str "$.data"),
          ("map", Value.obj [("labels", Value.str "$.months")])]) :=
  ⟨C3_variable_resolution_single_pass.2.1
      [("primary", Value.str "#336699")]
      [("color", Value.str "$missing"),
        ("style", Value.obj [("stroke", Value.str "$primary"),
          ("fill", Value.str "$absent")]),
        ("source", Value.funcall "$fetch" [Value.str "/api"]),
        ("path", Value.str "$.data"),
        ("map", Value.obj [("labels", Value.str "$.months")])]
      "color" "$missing" (by decide) rfl (by decide) (by decide) rfl,
    C3_variable_resolution_single_pass.2.2.1
      [("primary", Value.str "#336699")]
      [("color", Value.str "$missing"),
        ("style", Value.obj [("stroke", Value.str "$primary"),
          ("fill", Value.str "$absent")]),
        ("source", Value.funcall "$fetch" [Value.str "/api"]),
        ("path", Value.str "$.data"),
        ("map", Value.obj [("labels", Value.str "$.months")])]
      "path" "$.data" rfl (by decide),
    C3_variable_resolution_single_pass.2.2.2
      [("primary", Value.str "#336699")]
      [("color", Value.str "$missing"),
        ("style", Value.obj [("stroke", Value.str "$primary"),
          ("fill", Value.str "$absent")]),
        ("source", Value.funcall "$fetch" [Value.str "/api"]),
        ("path", Value.str "$.data"),
        ("map", Value.obj [("labels", Value.str "$.months")])]
      (Value.obj [("labels", Value.str "$.months")]) rfl,
    C3_variable_resolution_single_pass.1
      [("primary", Value.str "#336699")]
      [("color", Value.str "$missing"),
        ("style", Value.obj [("stroke", Value.str "$primary"),
          ("fill", Value.str "$absent")]),
        ("source", Value.funcall "$fetch" [Value.str "/api"]),
        ("path", Value.str "$.data"),
        ("map", Value.obj [("labels", Value.str "$.months")])]⟩

/-! ### Mapper lemmas -/

theorem splitChar_no_sep (c : Char) :
    ∀ cs : List Char, c ∉ cs → splitChar c cs = [cs] := by
  intro cs
  induction cs with
  | nil => intro _; rfl
  | cons a as ih =>
    intro h
    simp only [List.mem_cons] at h
    push_neg at h
    have ha : ¬ a = c := fun hh => h.1 hh.symm
    simp [splitChar, ih h.2, ha]

theorem jsSplit_single (s : String) (h : ('.' : Char) ∉ s.toList) :
    jsSplit s '.' = [s] := by
  unfold jsSplit
  rw [splitChar_no_sep '.' s.toList h]
  simp only [List.map_cons, List.map_nil]
  congr

theorem getValue_of_rooted (obj : Value) (path : String)
    (h : jsStartsWith path "$." = true) :
    JSONPathMapper.getValue obj path =
      .ok (jsonWalk (some obj) (jsSplit (path.drop 2) '.')) := by
  simp [JSONPathMapper.getValue, h]

theorem mapLoop_single_seg (data : Value) :
    ∀ (table : List (String × String)) (acc : Fields),
      (∀ p ∈ table, jsStartsWith p.2 "$." = true) →
      (∀ p ∈ table, ('.' : Char) ∉ p.1.toList) →
      (table.map Prod.fst).Nodup →
      ∃ m, mapLoop data table acc = .ok m ∧
        ∀ t, lookupKey m t =
          match mapGet table t with
          | none => lookupKey acc t
          | some src =>
            match (JSONPathMapper.getValue data src).toOption.join with
            | some v => some v
            | none => lookupKey acc t := by
  intro table
  induction table with
  | nil =>
    intro acc _ _ _
    exact ⟨acc, rfl, fun t => by simp [mapGet]⟩
  | cons p rest ih =>
    intro acc hpaths hsingle hnd
    obtain ⟨t₀, src₀⟩ := p
    rw [List.map_cons, List.nodup_cons] at hnd
    have hp₀ : jsStartsWith src₀ "$." = true := hpaths (t₀, src₀) (by simp)
    have hval := getValue_of_rooted data src₀ hp₀
    have hpaths' : ∀ p ∈ rest, jsStartsWith p.2 "$." = true :=
      fun p hp => hpaths p (by simp [hp])
    have hsingle' : ∀ p ∈ rest, ('.' : Char) ∉ p.1.toList :=
      fun p hp => hsingle p (by simp [hp])
    have hs₀ : ('.' : Char) ∉ t₀.toList := hsingle (t₀, src₀) (by simp)
    cases hr : jsonWalk (some data) (jsSplit (src₀.drop 2) '.') with
    | none =>
      obtain ⟨m, hm, hchar⟩ := ih acc hpaths' hsingle' hnd.2
      refine ⟨m, ?_, ?_⟩
      · simp only [mapLoop, hval, hr]
        exact hm
      · intro t
        by_cases ht : t₀ = t
        · subst ht
          have hrest : mapGet rest t₀ = none := by
            cases hmg : mapGet rest t₀ with
            | none => rfl
            | some w => exact absurd (mapGet_some_mem_keys hmg) hnd.1
          rw [hchar t₀, hrest]
          simp [mapGet, hval, hr, Except.toOption, Option.join]
        · rw [hchar t]
          simp [mapGet, ht]
    | some v =>
      have hset : setNested acc (jsSplit t₀ '.') v = .ok (setKey acc t₀ v) := by
        rw [jsSplit_single t₀ hs₀]
        rfl
      obtain ⟨m, hm, hchar⟩ := ih (setKey acc t₀ v) hpaths' hsingle' hnd.2
      refine ⟨m, ?_, ?_⟩
      · simp only [mapLoop, hval, hr, hset]
        exact hm
      · intro t
        by_cases ht : t₀ = t
        · subst ht
          have hrest : mapGet rest t₀ = none := by
            cases hmg : mapGet rest t₀ with
            | none => rfl
            | some w => exact absurd (mapGet_some_mem_keys hmg) hnd.1
          rw [hchar t₀, hrest, lookupKey_setKey_self]
          simp [mapGet, hval, hr, Except.toOption, Option.join]
        · rw [hchar t]
          rw [lookupKey_setKey_other _ _ _ _ (fun hh => ht hh.symm)]
          simp [mapGet, ht]

/-! ### Nested target paths: `setNested` get-after-set and frame rules -/

/-- The two-or-more-segment step of `setNested`, as a rewriting equation. -/
theorem setNested_cons₂ (obj : Fields) (p q : String) (rest : List String)
    (v : Value) :
    setNested obj (p :: q :: rest) v =
      match lookupKey obj p with
      | some (Value.obj child) =>
        match setNested child (q :: rest) v with
        | .ok child' => .ok (setKey obj p (Value.obj child'))
        | .error e => .error e
      | some Value.null => .error "TypeError: cannot create property on null"
      | some (Value.arr _) =>
        .error "unmodelled: property write on an array intermediate"
      | some (Value.funcall _ _) =>
        .error "unmodelled: property write on a function-call literal"
      | _ =>
        match setNested [] (q :: rest) v with
        | .ok child' => .ok (setKey obj p (Value.obj child'))
        | .error e => .error e := rfl

/-- The two-or-more-segment step of `getPath`. -/
theorem getPath_cons₂ (m : Fields) (p q : String) (rest : List String) :
    getPath m (p :: q :: rest) =
      match lookupKey m p with
      | some (.obj f) => getPath f (q :: rest)
      | _ => none := rfl

theorem getPath_nil (ps : List String) : getPath [] ps = none := by
  cases ps with
  | nil => rfl
  | cons p rest => cases rest <;> rfl

/-- On a fresh object every non-empty path can be written. -/
theorem setNested_nil_ok : ∀ (ps : List String) (v : Value), ps ≠ [] →
    ∃ r, setNested [] ps v = .ok r := by
  intro ps
  induction ps with
  | nil => intro v h; exact absurd rfl h
  | cons p rest ih =>
    intro v _
    cases rest with
    | nil => exact ⟨[(p, v)], rfl⟩
    | cons q rest' =>
      obtain ⟨r, hr⟩ := ih v (by simp)
      refine ⟨setKey [] p (Value.obj r), ?_⟩
      rw [setNested_cons₂]
      simp [lookupKey, hr]

/-- Get-after-set: a successful nested write is read back at its own
path. -/
theorem getPath_setNested_self :
    ∀ (ps : List String) (ob ob' : Fields) (v : Value), ps ≠ [] →
      setNested ob ps v = .ok ob' → getPath ob' ps = some v := by
  intro ps
  induction ps with
  | nil => intro ob ob' v h; exact absurd rfl h
  | cons p rest ih =>
    intro ob ob' v _ hset
    cases rest with
    | nil =>
      simp [setNested] at hset
      subst hset
      simp [getPath, lookupKey_setKey_self]
    | cons q rest' =>
      rw [setNested_cons₂] at hset
      cases hl : lookupKey ob p with
      | none =>
        rw [hl] at hset
        dsimp only at hset
        cases hsn : setNested [] (q :: rest') v with
        | ok child' =>
          rw [hsn] at hset
          simp at hset
          subst hset
          rw [getPath_cons₂, lookupKey_setKey_self]
          exact ih [] child' v (by simp) hsn
        | error e => rw [hsn] at hset; simp at hset
      | some w =>
        cases w with
        | obj child =>
          rw [hl] at hset
          dsimp only at hset
          cases hsn : setNested child (q :: rest') v with
          | ok child' =>
            rw [hsn] at hset
            simp at hset
            subst hset
            rw [getPath_cons₂, lookupKey_setKey_self]
            exact ih child child' v (by simp) hsn
          | error e => rw [hsn] at hset; simp at hset
        | null => rw [hl] at hset; simp at hset
        | arr xs => rw [hl] at hset; simp at hset
        | funcall nm args => rw [hl] at hset; simp at hset
        | str t =>
          rw [hl] at hset
          dsimp only at hset
          cases hsn : setNested [] (q :: rest') v with
          | ok child' =>
            rw [hsn] at hset
            simp at hset
            subst hset
            rw [getPath_cons₂, lookupKey_setKey_self]
            exact ih [] child' v (by simp) hsn
          | error e => rw [hsn] at hset; simp at hset
        | num x =>
          rw [hl] at hset
          dsimp only at hset
          cases hsn : setNested [] (q :: rest') v with
          | ok child' =>
            rw [hsn] at hset
            simp at hset
            subst hset
            rw [getPath_cons₂, lookupKey_setKey_self]
            exact ih [] child' v (by simp) hsn
          | error e => rw [hsn] at hset; simp at hset
        | bool b =>
          rw [hl] at hset
          dsimp only at hset
          cases hsn : setNested [] (q :: rest') v with
          | ok child' =>
            rw [hsn] at hset
            simp at hset
            subst hset
            rw [getPath_cons₂, lookupKey_setKey_self]
            exact ih [] child' v (by simp) hsn
          | error e => rw [hsn] at hset; simp at hset

theorem getPath_setKey_other (ob : Fields) (q : String) (x : Value)
    (p : String) (prest : List String) (hpq : p ≠ q) :
    getPath (setKey ob q x) (p :: prest) = getPath ob (p :: prest) := by
  cases prest with
  | nil => simp [getPath, lookupKey_setKey_other ob q p x hpq]
  | cons a arest =>
    rw [getPath_cons₂, getPath_cons₂, lookupKey_setKey_other ob q p x hpq]

/-- Frame rule: a successful nested write leaves every divergent path
unchanged. -/
theorem getPath_setNested_diverge :
    ∀ (ps qs : List String) (ob ob' : Fields) (w : Value),
      diverges ps qs = true →
      setNested ob qs w = .ok ob' →
      getPath ob' ps = getPath ob ps := by
  intro ps
  induction ps with
  | nil => intro qs ob ob' w hd _; simp [diverges] at hd
  | cons p prest ih =>
    intro qs ob ob' w hd hset
    cases qs with
    | nil => cases prest <;> simp [diverges] at hd
    | cons q qrest =>
      simp only [diverges, Bool.or_eq_true, decide_eq_true_eq] at hd
      cases qrest with
      | nil =>
        have hpq : p ≠ q := by
          rcases hd with h | h
          · exact h
          · cases prest <;> simp [diverges] at h
        simp [setNested] at hset
        subst hset
        exact getPath_setKey_other ob q w p prest hpq
      | cons b qrest' =>
        rw [setNested_cons₂] at hset
        by_cases hpq : p = q
        · subst hpq
          have hdt : diverges prest (b :: qrest') = true := by
            rcases hd with h | h
            · exact absurd rfl h
            · exact h
          obtain ⟨a, arest, hpr⟩ :
              ∃ a arest, prest = a :: arest := by
            cases prest with
            | nil => simp [diverges] at hdt
            | cons a arest => exact ⟨a, arest, rfl⟩
          subst hpr
          cases hl : lookupKey ob p with
          | none =>
            rw [hl] at hset
            dsimp only at hset
            cases hsn : setNested [] (b :: qrest') w with
            | ok child' =>
              rw [hsn] at hset
              simp at hset
              subst hset
              rw [getPath_cons₂, getPath_cons₂, lookupKey_setKey_self, hl]
              dsimp only
              rw [ih (b :: qrest') [] child' w hdt hsn]
              exact getPath_nil (a :: arest)
            | error e => rw [hsn] at hset; simp at hset
          | some u =>
            cases u with
            | obj child =>
              rw [hl] at hset
              dsimp only at hset
              cases hsn : setNested child (b :: qrest') w with
              | ok child' =>
                rw [hsn] at hset
                simp at hset
                subst hset
                rw [getPath_cons₂, getPath_cons₂, lookupKey_setKey_self, hl]
                dsimp only
                exact ih (b :: qrest') child child' w hdt hsn
              | error e => rw [hsn] at hset; simp at hset
            | null => rw [hl] at hset; simp at hset
            | arr xs => rw [hl] at hset; simp at hset
            | funcall nm args => rw [hl] at hset; simp at hset
            | str t =>
              rw [hl] at hset
              dsimp only at hset
              cases hsn : setNested [] (b :: qrest') w with
              | ok child' =>
                rw [hsn] at hset
                simp at hset
                subst hset
                rw [getPath_cons₂, getPath_cons₂, lookupKey_setKey_self, hl]
                dsimp only
                rw [ih (b :: qrest') [] child' w hdt hsn]
                exact getPath_nil (a :: arest)
              | error e => rw [hsn] at hset; simp at hset
            | num x =>
              rw [hl] at hset
              dsimp only at hset
              cases hsn : setNested [] (b :: qrest') w with
              | ok child' =>
                rw [hsn] at hset
                simp at hset
                subst hset
                rw [getPath_cons₂, getPath_cons₂, lookupKey_setKey_self, hl]
                dsimp only
                rw [ih (b :: qrest') [] child' w hdt hsn]
                exact getPath_nil (a :: arest)
              | error e => rw [hsn] at hset; simp at hset
            | bool bb =>
              rw [hl] at hset
              dsimp only at hset
              cases hsn : setNested [] (b :: qrest') w with
              | ok child' =>
                rw [hsn] at hset
                simp at hset
                subst hset
                rw [getPath_cons₂, getPath_cons₂, lookupKey_setKey_self, hl]
                dsimp only
                rw [ih (b :: qrest') [] child' w hdt hsn]
                exact getPath_nil (a :: arest)
              | error e => rw [hsn] at hset; simp at hset
        · cases hl : lookupKey ob q with
          | none =>
            rw [hl] at hset
            dsimp only at hset
            cases hsn : setNested [] (b :: qrest') w with
            | ok child' =>
              rw [hsn] at hset
              simp at hset
              subst hset
              exact getPath_setKey_other ob q (Value.obj child') p prest hpq
            | error e => rw [hsn] at hset; simp at hset
          | some u =>
            cases u with
            | obj child =>
              rw [hl] at hset
              dsimp only at hset
              cases hsn : setNested child (b :: qrest') w with
              | ok child' =>
                rw [hsn] at hset
                simp at hset
                subst hset
                exact getPath_setKey_other ob q (Value.obj child') p prest hpq
              | error e => rw [hsn] at hset; simp at hset
            | null => rw [hl] at hset; simp at hset
            | arr xs => rw [hl] at hset; simp at hset
            | funcall nm args => rw [hl] at hset; simp at hset
            | str t =>
              rw [hl] at hset
              dsimp only at hset
              cases hsn : setNested [] (b :: qrest') w with
              | ok child' =>
                rw [hsn] at hset
                simp at hset
                subst hset
                exact getPath_setKey_other ob q (Value.obj child') p prest hpq
              | error e => rw [hsn] at hset; simp at hset
            | num x =>
              rw [hl] at hset
              dsimp only at hset
              cases hsn : setNested [] (b :: qrest') w with
              | ok child' =>
                rw [hsn] at hset
                simp at hset
                subst hset
                exact getPath_setKey_other ob q (Value.obj child') p prest hpq
              | error e => rw [hsn] at hset; simp at hset
            | bool bb =>
              rw [hl] at hset
              dsimp only at hset
              cases hsn : setNested [] (b :: qrest') w with
              | ok child' =>
                rw [hsn] at hset
                simp at hset
                subst hset
                exact getPath_setKey_other ob q (Value.obj child') p prest hpq
              | error e => rw [hsn] at hset; simp at hset

theorem setNested_ok_setKey_other (ob : Fields) (q : String) (x : Value)
    (p : String) (prest : List String) (hpq : p ≠ q)
    (hsucc : ∀ v, ∃ r, setNested ob (p :: prest) v = .ok r) :
    ∀ v, ∃ r, setNested (setKey ob q x) (p :: prest) v = .ok r := by
  intro v
  cases prest with
  | nil => exact ⟨_, rfl⟩
  | cons a arest =>
    obtain ⟨r, hr⟩ := hsucc v
    rw [setNested_cons₂] at hr
    rw [setNested_cons₂, lookupKey_setKey_other ob q p x hpq]
    cases hl : lookupKey ob p with
    | none =>
      try rw [hl] at hr
      try rw [hl]
      dsimp only at hr ⊢
      cases hsn : setNested [] (a :: arest) v with
      | ok c => exact ⟨_, rfl⟩
      | error e => rw [hsn] at hr; simp at hr
    | some u =>
      cases u with
      | obj child =>
        try rw [hl] at hr
        try rw [hl]
        dsimp only at hr ⊢
        cases hsn : setNested child (a :: arest) v with
        | ok c => exact ⟨_, rfl⟩
        | error e => rw [hsn] at hr; simp at hr
      | null => try rw [hl] at hr; simp at hr
      | arr xs => try rw [hl] at hr; simp at hr
      | funcall nm args => try rw [hl] at hr; simp at hr
      | str t =>
        try rw [hl] at hr
        try rw [hl]
        dsimp only at hr ⊢
        cases hsn : setNested [] (a :: arest) v with
        | ok c => exact ⟨_, rfl⟩
        | error e => rw [hsn] at hr; simp at hr
      | num n =>
        try rw [hl] at hr
        try rw [hl]
        dsimp only at hr ⊢
        cases hsn : setNested [] (a :: arest) v with
        | ok c => exact ⟨_, rfl⟩
        | error e => rw [hsn] at hr; simp at hr
      | bool bb =>
        try rw [hl] at hr
        try rw [hl]
        dsimp only at hr ⊢
        cases hsn : setNested [] (a :: arest) v with
        | ok c => exact ⟨_, rfl⟩
        | error e => rw [hsn] at hr; simp at hr

/-- A successful nested write preserves writability of every divergent
path. -/
theorem setNested_ok_diverge :
    ∀ (ps qs : List String) (ob ob' : Fields) (w : Value),
      diverges ps qs = true →
      setNested ob qs w = .ok ob' →
      (∀ v, ∃ r, setNested ob ps v = .ok r) →
      ∀ v, ∃ r, setNested ob' ps v = .ok r := by
  intro ps
  induction ps with
  | nil => intro qs ob ob' w hd _ _; simp [diverges] at hd
  | cons p prest ih =>
    intro qs ob ob' w hd hset hsucc
    cases prest with
    | nil => intro v; exact ⟨setKey ob' p v, rfl⟩
    | cons a arest =>
      cases qs with
      | nil => simp [diverges] at hd
      | cons q qrest =>
        simp only [diverges, Bool.or_eq_true, decide_eq_true_eq] at hd
        cases qrest with
        | nil =>
          have hpq : p ≠ q := by
            rcases hd with h | h
            · exact h
            · simp [diverges] at h
          simp [setNested] at hset
          subst hset
          exact setNested_ok_setKey_other ob q w p (a :: arest) hpq hsucc
        | cons b qrest' =>
          rw [setNested_cons₂] at hset
          by_cases hpq : p = q
          · subst hpq
            have hdt : diverges (a :: arest) (b :: qrest') = true := by
              rcases hd with h | h
              · exact absurd rfl h
              · exact h
            cases hl : lookupKey ob p with
            | none =>
              try rw [hl] at hset
              dsimp only at hset
              cases hsn : setNested [] (b :: qrest') w with
              | ok child' =>
                rw [hsn] at hset
                simp at hset
                subst hset
                have hinner := ih (b :: qrest') [] child' w hdt hsn
                  (fun v => setNested_nil_ok (a :: arest) v (by simp))
                intro v
                obtain ⟨r', h'⟩ := hinner v
                refine ⟨setKey (setKey ob p (Value.obj child')) p
                  (Value.obj r'), ?_⟩
                rw [setNested_cons₂, lookupKey_setKey_self]
                dsimp only
                rw [h']
              | error e => rw [hsn] at hset; simp at hset
            | some u =>
              cases u with
              | obj child =>
                try rw [hl] at hset
                dsimp only at hset
                cases hsn : setNested child (b :: qrest') w with
                | ok child' =>
                  rw [hsn] at hset
                  simp at hset
                  subst hset
                  have hsuccChild : ∀ v, ∃ r', setNested child (a :: arest) v = .ok r' := by
                    intro v
                    obtain ⟨r, hr⟩ := hsucc v
                    rw [setNested_cons₂] at hr
                    try rw [hl] at hr
                    dsimp only at hr
                    cases hsn' : setNested child (a :: arest) v with
                    | ok c => exact ⟨c, rfl⟩
                    | error e => rw [hsn'] at hr; simp at hr
                  have hinner := ih (b :: qrest') child child' w hdt hsn hsuccChild
                  intro v
                  obtain ⟨r', h'⟩ := hinner v
                  refine ⟨setKey (setKey ob p (Value.obj child')) p
                    (Value.obj r'), ?_⟩
                  rw [setNested_cons₂, lookupKey_setKey_self]
                  dsimp only
                  rw [h']
                | error e => rw [hsn] at hset; simp at hset
              | null => try rw [hl] at hset; simp at hset
              | arr xs => try rw [hl] at hset; simp at hset
              | funcall nm args => try rw [hl] at hset; simp at hset
              | str t =>
                try rw [hl] at hset
                dsimp only at hset
                cases hsn : setNested [] (b :: qrest') w with
                | ok child' =>
                  rw [hsn] at hset
                  simp at hset
                  subst hset
                  have hinner := ih (b :: qrest') [] child' w hdt hsn
                    (fun v => setNested_nil_ok (a :: arest) v (by simp))
                  intro v
                  obtain ⟨r', h'⟩ := hinner v
                  refine ⟨setKey (setKey ob p (Value.obj child')) p
                    (Value.obj r'), ?_⟩
                  rw [setNested_cons₂, lookupKey_setKey_self]
                  dsimp only
                  rw [h']
                | error e => rw [hsn] at hset; simp at hset
              | num n =>
                try rw [hl] at hset
                dsimp only at hset
                cases hsn : setNested [] (b :: qrest') w with
                | ok child' =>
                  rw [hsn] at hset
                  simp at hset
                  subst hset
                  have hinner := ih (b :: qrest') [] child' w hdt hsn
                    (fun v => setNested_nil_ok (a :: arest) v (by simp))
                  intro v
                  obtain ⟨r', h'⟩ := hinner v
                  refine ⟨setKey (setKey ob p (Value.obj child')) p
                    (Value.obj r'), ?_⟩
                  rw [setNested_cons₂, lookupKey_setKey_self]
                  dsimp only
                  rw [h']
                | error e => rw [hsn] at hset; simp at hset
              | bool bb =>
                try rw [hl] at hset
                dsimp only at hset
                cases hsn : setNested [] (b :: qrest') w with
                | ok child' =>
                  rw [hsn] at hset
                  simp at hset
                  subst hset
                  have hinner := ih (b :: qrest') [] child' w hdt hsn
                    (fun v => setNested_nil_ok (a :: arest) v (by simp))
                  intro v
                  obtain ⟨r', h'⟩ := hinner v
                  refine ⟨setKey (setKey ob p (Value.obj child')) p
                    (Value.obj r'), ?_⟩
                  rw [setNested_cons₂, lookupKey_setKey_self]
                  dsimp only
                  rw [h']
                | error e => rw [hsn] at hset; simp at hset
          · cases hl : lookupKey ob q with
            | none =>
              try rw [hl] at hset
              dsimp only at hset
              cases hsn : setNested [] (b :: qrest') w with
              | ok child' =>
                rw [hsn] at hset
                simp at hset
                subst hset
                exact setNested_ok_setKey_other ob q (Value.obj child') p
                  (a :: arest) hpq hsucc
              | error e => rw [hsn] at hset; simp at hset
            | some u =>
              cases u with
              | obj child =>
                try rw [hl] at hset
                dsimp only at hset
                cases hsn : setNested child (b :: qrest') w with
                | ok child' =>
                  rw [hsn] at hset
                  simp at hset
                  subst hset
                  exact setNested_ok_setKey_other ob q (Value.obj child') p
                    (a :: arest) hpq hsucc
                | error e => rw [hsn] at hset; simp at hset
              | null => try rw [hl] at hset; simp at hset
              | arr xs => try rw [hl] at hset; simp at hset
              | funcall nm args => try rw [hl] at hset; simp at hset
              | str t =>
                try rw [hl] at hset
                dsimp only at hset
                cases hsn : setNested [] (b :: qrest') w with
                | ok child' =>
                  rw [hsn] at hset
                  simp at hset
                  subst hset
                  exact setNested_ok_setKey_other ob q (Value.obj child') p
                    (a :: arest) hpq hsucc
                | error e => rw [hsn] at hset; simp at hset
              | num n =>
                try rw [hl] at hset
                dsimp only at hset
                cases hsn : setNested [] (b :: qrest') w with
                | ok child' =>
                  rw [hsn] at hset
                  simp at hset
                  subst hset
                  exact setNested_ok_setKey_other ob q (Value.obj child') p
                    (a :: arest) hpq hsucc
                | error e => rw [hsn] at hset; simp at hset
              | bool bb =>
                try rw [hl] at hset
                dsimp only at hset
                cases hsn : setNested [] (b :: qrest') w with
                | ok child' =>
                  rw [hsn] at hset
                  simp at hset
                  subst hset
                  exact setNested_ok_setKey_other ob q (Value.obj child') p
                    (a :: arest) hpq hsucc
                | error e => rw [hsn] at hset; simp at hset

theorem diverges_symm : ∀ ps qs : List String, diverges ps qs = diverges qs ps := by
  intro ps
  induction ps with
  | nil => intro qs; cases qs <;> rfl
  | cons p prest ih =>
    intro qs
    cases qs with
    | nil => rfl
    | cons q qrest =>
      by_cases hpq : p = q
      · simp [diverges, hpq, ih qrest]
      · simp [diverges, hpq, Ne.symm hpq]

theorem splitChar_ne_nil (c : Char) : ∀ cs : List Char, splitChar c cs ≠ [] := by
  intro cs
  induction cs with
  | nil => simp [splitChar]
  | cons a as ih =>
    simp only [splitChar]
    cases h : splitChar c as with
    | nil => exact absurd h ih
    | cons hh tt => by_cases hac : a = c <;> simp [hac]

theorem jsSplit_ne_nil (s : String) (c : Char) : jsSplit s c ≠ [] := by
  unfold jsSplit
  cases hs : splitChar c s.toList with
  | nil => exact absurd hs (splitChar_ne_nil c s.toList)
  | cons a b => simp

/-- The entry loop of `map` on pairwise-divergent (possibly dotted)
targets: it succeeds, each target position reads back as the extracted
value (or as before for omitted entries), and divergent positions are
untouched. -/
theorem mapLoop_nested_seg (data : Value) :
    ∀ (table : List (String × String)) (acc : Fields),
      (∀ p ∈ table, jsStartsWith p.2 "$." = true) →
      (table.map (fun p => jsSplit p.1 '.')).Pairwise
        (fun x y => diverges x y = true) →
      (∀ p ∈ table, ∀ v, ∃ r, setNested acc (jsSplit p.1 '.') v = .ok r) →
      ∃ m, mapLoop data table acc = .ok m ∧
        (∀ p ∈ table, getPath m (jsSplit p.1 '.') =
          match (JSONPathMapper.getValue data p.2).toOption.join with
          | some v => some v
          | none => getPath acc (jsSplit p.1 '.')) ∧
        (∀ ps : List String,
          (∀ p ∈ table, diverges ps (jsSplit p.1 '.') = true) →
          getPath m ps = getPath acc ps) := by
  intro table
  induction table with
  | nil =>
    intro acc _ _ _
    exact ⟨acc, rfl, fun p hp => absurd hp (List.not_mem_nil p),
      fun ps _ => rfl⟩
  | cons e rest ih =>
    intro acc hpaths hpw hsucc
    obtain ⟨t₀, src₀⟩ := e
    rw [List.map_cons, List.pairwise_cons] at hpw
    have hp₀ : jsStartsWith src₀ "$." = true := hpaths (t₀, src₀) (by simp)
    have hval := getValue_of_rooted data src₀ hp₀
    have hpaths' : ∀ p ∈ rest, jsStartsWith p.2 "$." = true :=
      fun p hp => hpaths p (by simp [hp])
    have hdiv0 : ∀ p ∈ rest,
        diverges (jsSplit t₀ '.') (jsSplit p.1 '.') = true := by
      intro p hp
      exact hpw.1 (jsSplit p.1 '.') (List.mem_map_of_mem _ hp)
    cases hr : jsonWalk (some data) (jsSplit (src₀.drop 2) '.') with
    | none =>
      obtain ⟨m, hm, hchar, hframe⟩ :=
        ih acc hpaths' hpw.2 (fun p hp v => hsucc p (by simp [hp]) v)
      refine ⟨m, ?_, ?_, ?_⟩
      · simp only [mapLoop, hval, hr]
        exact hm
      · intro p hp
        rcases List.mem_cons.mp hp with he | hp'
        · subst he
          dsimp only
          rw [hframe (jsSplit t₀ '.') hdiv0]
          simp [hval, hr, Except.toOption, Option.join]
        · exact hchar p hp'
      · intro ps hps
        exact hframe ps (fun p hp => hps p (by simp [hp]))
    | some v₀ =>
      obtain ⟨acc', hacc'⟩ := hsucc (t₀, src₀) (by simp) v₀
      have hsucc' : ∀ p ∈ rest, ∀ v, ∃ r,
          setNested acc' (jsSplit p.1 '.') v = .ok r := by
        intro p hp v
        exact setNested_ok_diverge (jsSplit p.1 '.') (jsSplit t₀ '.')
          acc acc' v₀ (by rw [diverges_symm]; exact hdiv0 p hp) hacc'
          (fun u => hsucc p (by simp [hp]) u) v
      obtain ⟨m, hm, hchar, hframe⟩ := ih acc' hpaths' hpw.2 hsucc'
      refine ⟨m, ?_, ?_, ?_⟩
      · simp only [mapLoop, hval, hr, hacc']
        exact hm
      · intro p hp
        rcases List.mem_cons.mp hp with he | hp'
        · subst he
          dsimp only
          rw [hframe (jsSplit t₀ '.') hdiv0]
          rw [getPath_setNested_self (jsSplit t₀ '.') acc acc' v₀
            (jsSplit_ne_nil t₀ '.') hacc']
          simp [hval, hr, Except.toOption, Option.join]
        · rw [hchar p hp']
          cases hj : (JSONPathMapper.getValue data p.2).toOption.join with
          | some w => rfl
          | none =>
            dsimp only
            exact getPath_setNested_diverge (jsSplit p.1 '.') (jsSplit t₀ '.')
              acc acc' v₀ (by rw [diverges_symm]; exact hdiv0 p hp') hacc'
      · intro ps hps
        rw [hframe ps (fun p hp => hps p (by simp [hp]))]
        exact getPath_setNested_diverge ps (jsSplit t₀ '.') acc acc' v₀
          (hps (t₀, src₀) (by simp)) hacc'

/-- C7: for every payload and every path starting with the root marker
`"$."`, `getValue` walks the dot-separated (and single bracketed-index)
segments totally — it never throws, returning `Except.ok` with the value
found or `undefined` (`none`) on any missing intermediate. For every
mapping table of `"$."`-rooted source paths: with duplicate-free
single-segment targets, `map` builds a fresh output whose value at each
target key is exactly the successfully extracted value; with arbitrary
(possibly dotted) pairwise-divergent targets, `map` succeeds and reading
the output back along each target's segments yields exactly the extracted
value — entries whose source resolves to nothing are omitted entirely
(their positions read back as absent). The spec's round-trip example and a
dotted-target example evaluate accordingly. -/
theorem C7_mapper_getValue_and_map :
    (∀ (payload : Value) (path : String), jsStartsWith path "$." = true →
      ∃ r, JSONPathMapper.getValue payload path = .ok r) ∧
    (∀ (data : Value) (table : List (String × String)),
      (∀ p ∈ table, jsStartsWith p.2 "$." = true) →
      (∀ p ∈ table, ('.' : Char) ∉ p.1.toList) →
      (table.map Prod.fst).Nodup →
      ∃ m, JSONPathMapper.mapPaths data table = .ok m ∧
        ∀ t, lookupKey m t =
          match mapGet table t with
          | none => none
          | some src => (JSONPathMapper.getValue data src).toOption.join) ∧
    (∀ (data : Value) (table : List (String × String)),
      (∀ p ∈ table, jsStartsWith p.2 "$." = true) →
      (table.map (fun p => jsSplit p.1 '.')).Pairwise
        (fun x y => diverges x y = true) →
      ∃ m, JSONPathMapper.mapPaths data table = .ok m ∧
        ∀ p ∈ table, getPath m (jsSplit p.1 '.') =
          (JSONPathMapper.getValue data p.2).toOption.join) ∧
    JSONPathMapper.mapPaths
        (.obj [("months", .arr [.str "Jan", .str "Feb"]),
          ("charts", .arr [.obj [("label", .str "Sales"),
            ("values", .arr [.num 100, .num 200])]])])
        [("labels", "$.months"), ("datasets", "$.charts")] =
      .ok [("labels", .arr [.str "Jan", .str "Feb"]),
        ("datasets", .arr [.obj [("label", .str "Sales"),
          ("values", .arr [.num 100, .num 200])]])] ∧
    JSONPathMapper.mapPaths
        (.obj [("meta", .obj [("name", .str "Sales")])])
        [("options.title.text", "$.meta.name"), ("labels", "$.meta.name")] =
      .ok [("options", .obj [("title", .obj [("text", .str "Sales")])]),
        ("labels", .str "Sales")] := by
  refine ⟨?_, ?_, ?_, ?_, ?_⟩
  · intro payload path h
    exact ⟨_, getValue_of_rooted payload path h⟩
  · intro data table hpaths hsingle hnd
    obtain ⟨m, hm, hchar⟩ := mapLoop_single_seg data table [] hpaths hsingle hnd
    refine ⟨m, hm, ?_⟩
    intro t
    rw [hchar t]
    cases hmg : mapGet table t with
    | none => rfl
    | some src =>
      simp only
      cases (JSONPathMapper.getValue data src).toOption.join <;> rfl
  · intro data table hpaths hpw
    obtain ⟨m, hm, hchar, _⟩ := mapLoop_nested_seg data table [] hpaths hpw
      (fun p _ v => setNested_nil_ok (jsSplit p.1 '.') v (jsSplit_ne_nil p.1 '.'))
    refine ⟨m, hm, ?_⟩
    intro p hp
    rw [hchar p hp]
    cases hj : (JSONPathMapper.getValue data p.2).toOption.join with
    | some w => rfl
    | none =>
      dsimp only
      exact getPath_nil (jsSplit p.1 '.')
  · rfl
  · rfl

theorem C7_mapper_getValue_and_map_witness :
    (∃ r, JSONPathMapper.getValue
      (.obj [("months", .arr [.str "Jan", .str "Feb"])]) "$.months" = .ok r) ∧
    (∃ m, JSONPathMapper.mapPaths
        (.obj [("months", .arr [.str "Jan", .str "Feb"])])
        [("labels", "$.months"), ("missing", "$.nothing")] = .ok m ∧
      ∀ t, lookupKey m t =
        match mapGet [("labels", "$.months"), ("missing", "$.nothing")] t with
        | none => none
        | some src => (JSONPathMapper.getValue
            (.obj [("months", .arr [.str "Jan", .str "Feb"])]) src).toOption.join) ∧
    (∃ m, JSONPathMapper.mapPaths
        (.obj [("months", .arr [.str "Jan", .str "Feb"])])
        [("options.title", "$.months"), ("missing", "$.nothing")] = .ok m ∧
      ∀ p ∈ ([("options.title", "$.months"), ("missing", "$.nothing")] :
          List (String × String)),
        getPath m (jsSplit p.1 '.') =
          (JSONPathMapper.getValue
            (.obj [("months", .arr [.str "Jan", .str "Feb"])]) p.2).toOption.join) :=
  ⟨C7_mapper_getValue_and_map.1
      (.obj [("months", .arr [.str "Jan", .str "Feb"])]) "$.months" (by decide),
    C7_mapper_getValue_and_map.2.1
      (.obj [("months", .arr [.str "Jan", .str "Feb"])])
      [("labels", "$.months"), ("missing", "$.nothing")]
      (by decide) (by decide) (by decide),
    C7_mapper_getValue_and_map.2.2.1
      (.obj [("months", .arr [.str "Jan", .str "Feb"])])
      [("options.title", "$.months"), ("missing", "$.nothing")]
      (by decide) (by decide)⟩

/-! ### Lexer: the input only shrinks -/

theorem advance1_rest_le (st : LexState) :
    st.advance1.rest.length ≤ st.rest.length := by
  obtain ⟨rest, line, col⟩ := st
  cases rest <;> simp [LexState.advance1]

theorem skipWsAux_rest_le :
    ∀ (cs : List Char) (line col : Nat),
      (skipWsAux cs line col).rest.length ≤ cs.length := by
  intro cs
  induction cs with
  | nil => intro line col; simp [skipWsAux]
  | cons c rest ih =>
    intro line col
    unfold skipWsAux
    by_cases h1 : c = '\n'
    · simp only [h1, if_pos rfl]
      exact le_trans (ih _ _) (by simp)
    · simp only [if_neg h1]
      by_cases h2 : isWsChar c
      · simp only [h2, if_pos rfl]
        exact le_trans (ih _ _) (by simp)
      · simp [h2]

theorem readRestOfLine_rest_le :
    ∀ (cs : List Char) (col : Nat),
      (readRestOfLine cs col).2.1.length ≤ cs.length := by
  intro cs
  induction cs with
  | nil => intro col; simp [readRestOfLine]
  | cons c rest ih =>
    intro col
    unfold readRestOfLine
    by_cases h : c = '\n'
    · simp [h]
    · simp only [if_neg h]
      exact le_trans (ih _) (by simp)

theorem readInterpAux_rest_le :
    ∀ (cs : List Char) (depth col : Nat),
      (readInterpAux cs depth col).2.1.length ≤ cs.length := by
  intro cs
  induction cs with
  | nil => intro depth col; simp [readInterpAux]
  | cons c rest ih =>
    intro depth col
    unfold readInterpAux
    simp only
    by_cases h : (if c = '{' then depth + 1
        else if c = '}' then depth - 1 else depth) = 0
    · simp [h]
    · simp only [if_neg h]
      exact le_trans (ih _ _) (by simp)

theorem readIdentAux_rest_le :
    ∀ (cs : List Char) (col : Nat),
      (readIdentAux cs col).2.1.length ≤ cs.length := by
  intro cs
  induction cs with
  | nil => intro col; simp [readIdentAux]
  | cons c rest ih =>
    intro col
    unfold readIdentAux
    split
    · exact le_trans (ih _) (by simp)
    · simp

theorem readNumberAux_rest_le :
    ∀ (cs : List Char) (col : Nat),
      (readNumberAux cs col).2.1.length ≤ cs.length := by
  intro cs
  induction cs with
  | nil => intro col; simp [readNumberAux]
  | cons c rest ih =>
    intro col
    unfold readNumberAux
    split
    · exact le_trans (ih _) (by simp)
    · simp

theorem readStringAux_rest_le (quote : Char) :
    ∀ (n : Nat) (cs : List Char) (col : Nat), cs.length ≤ n →
      (readStringAux quote cs col).2.1.length ≤ cs.length := by
  intro n
  induction n using Nat.strong_induction_on with
  | _ n ih =>
    intro cs col hn
    cases cs with
    | nil => simp [readStringAux]
    | cons c rest =>
      unfold readStringAux
      by_cases h1 : c = quote
      · simp [h1]
      · simp only [if_neg h1]
        by_cases h2 : c = '\\'
        · simp only [h2, if_pos rfl]
          cases rest with
          | nil => simp
          | cons e cs' =>
            simp only
            have hrec : (readStringAux quote cs' (col + 2)).2.1.length ≤ cs'.length := by
              apply ih cs'.length _ cs' (col + 2) (le_refl _)
              simp at hn
              omega
            calc (readStringAux quote cs' (col + 2)).2.1.length ≤ cs'.length := hrec
              _ ≤ (c :: e :: cs').length := by simp; omega
        · simp only [if_neg h2]
          have hrec : (readStringAux quote rest (col + 1)).2.1.length ≤ rest.length := by
            apply ih rest.length _ rest (col + 1) (le_refl _)
            simp at hn
            omega
          exact le_trans hrec (by simp)

theorem readComment_rest_le (st : LexState) :
    (Lexer.readComment st).2.rest.length ≤ st.rest.length :=
  le_trans (readRestOfLine_rest_le _ _) (advance1_rest_le st)

theorem readLineComment_rest_le (st : LexState) :
    (Lexer.readLineComment st).2.rest.length ≤ st.rest.length :=
  le_trans (readRestOfLine_rest_le _ _)
    (le_trans (advance1_rest_le _) (advance1_rest_le st))

theorem readInterpolation_rest_le (st : LexState) :
    (Lexer.readInterpolation st).2.rest.length ≤ st.rest.length :=
  le_trans (readInterpAux_rest_le _ _ _)
    (le_trans (advance1_rest_le _) (advance1_rest_le st))

theorem readVariable_rest_le (st : LexState) :
    (Lexer.readVariable st).2.rest.length ≤ st.rest.length :=
  le_trans (readIdentAux_rest_le _ _) (advance1_rest_le st)

theorem readIdentifier_rest_le (st : LexState) :
    (Lexer.readIdentifier st).2.rest.length ≤ st.rest.length :=
  readIdentAux_rest_le st.rest st.col

theorem readNumber_rest_le (st : LexState) :
    (Lexer.readNumber st).2.rest.length ≤ st.rest.length :=
  readNumberAux_rest_le st.rest st.col

theorem readString_rest_le (st : LexState) (q : Char) :
    (Lexer.readString st q).2.rest.length ≤ st.rest.length := by
  unfold Lexer.readString
  have h1 : (readStringAux q st.advance1.rest st.advance1.col).2.1.length ≤
      st.advance1.rest.length :=
    readStringAux_rest_le q st.advance1.rest.length st.advance1.rest
      st.advance1.col (le_refl _)
  have h2 := advance1_rest_le st
  simp only
  cases hm : (readStringAux q st.advance1.rest st.advance1.col).2.1 with
  | nil => simp
  | cons c cs =>
    rw [hm] at h1
    simp only
    by_cases hq : c = q
    · simp only [if_pos hq]
      simp at h1
      omega
    · simp only [if_neg hq]
      simp at h1 ⊢
      omega

theorem skipWhitespace_rest_le (st : LexState) :
    (Lexer.skipWhitespace st).rest.length ≤ st.rest.length :=
  skipWsAux_rest_le st.rest st.line st.col

theorem nextToken_rest_le (st : LexState) :
    (Lexer.nextToken st).2.rest.length ≤ st.rest.length := by
  unfold Lexer.nextToken
  by_cases h1 : st.rest.head? = some '#'
  · simp only [h1, ite_true]
    exact readComment_rest_le st
  rw [if_neg h1]
  by_cases h2 : (st.rest.head? = some '/' && st.rest.get? 1 = some '/') = true
  · rw [if_pos h2]
    exact readLineComment_rest_le st
  rw [if_neg h2]
  by_cases h3 : (st.rest.head? = some '$' && st.rest.get? 1 = some '{') = true
  · rw [if_pos h3]
    exact readInterpolation_rest_le st
  rw [if_neg h3]
  by_cases h4 : st.rest.head? = some '$'
  · rw [if_pos h4]
    by_cases h4a : st.rest.get? 1 = some '.'
    · rw [if_pos h4a]
      exact advance1_rest_le st
    rw [if_neg h4a]
    by_cases h4b : Lexer.isIdentifierStart (st.rest.get? 1) = true
    · rw [if_pos h4b]
      exact readVariable_rest_le st
    · rw [if_neg h4b]
      exact advance1_rest_le st
  rw [if_neg h4]
  by_cases h5 : st.rest.head? = some '"'
  · rw [if_pos h5]
    exact readString_rest_le st '"'
  rw [if_neg h5]
  by_cases h6 : st.rest.head? = some '\''
  · rw [if_pos h6]
    exact readString_rest_le st '\''
  rw [if_neg h6]
  by_cases h7 : Lexer.isDigit st.rest.head? = true
  · rw [if_pos h7]
    exact readNumber_rest_le st
  rw [if_neg h7]
  by_cases h8 : Lexer.matchKeyword st "true" = true
  · rw [if_pos h8]
  rw [if_neg h8]
  by_cases h9 : Lexer.matchKeyword st "false" = true
  · rw [if_pos h9]
  rw [if_neg h9]
  by_cases h10 : st.rest.head? = some ':'
  · rw [if_pos h10]
    exact advance1_rest_le st
  rw [if_neg h10]
  by_cases h11 : st.rest.head? = some ';'
  · rw [if_pos h11]
    exact advance1_rest_le st
  rw [if_neg h11]
  by_cases h12 : st.rest.head? = some '.'
  · rw [if_pos h12]
    exact advance1_rest_le st
  rw [if_neg h12]
  by_cases h13 : st.rest.head? = some '('
  · rw [if_pos h13]
    exact advance1_rest_le st
  rw [if_neg h13]
  by_cases h14 : st.rest.head? = some ')'
  · rw [if_pos h14]
    exact advance1_rest_le st
  rw [if_neg h14]
  by_cases h15 : Lexer.isIdentifierStart st.rest.head? = true
  · rw [if_pos h15]
    exact readIdentifier_rest_le st
  · rw [if_neg h15]
    exact advance1_rest_le st

theorem tokenizeAux_isSome :
    ∀ (fuel : Nat) (st : LexState) (acc : List DSLToken),
      acc.length ≤ 1000 →
      st.rest.length + (1001 - acc.length) < fuel →
      (tokenizeAux fuel st acc).isSome := by
  intro fuel
  induction fuel with
  | zero =>
    intro st acc h1 h2
    omega
  | succ fuel ih =>
    intro st acc hacc hm
    unfold tokenizeAux
    by_cases he : st.rest.isEmpty = true
    · simp [he]
    rw [if_neg he]
    by_cases he1 : (Lexer.skipWhitespace st).rest.isEmpty = true
    · simp [he1]
    rw [if_neg he1]
    have hsw : (Lexer.skipWhitespace st).rest.length ≤ st.rest.length :=
      skipWhitespace_rest_le st
    have hnt : (Lexer.nextToken (Lexer.skipWhitespace st)).2.rest.length ≤
        (Lexer.skipWhitespace st).rest.length :=
      nextToken_rest_le (Lexer.skipWhitespace st)
    simp only
    cases ht : (Lexer.nextToken (Lexer.skipWhitespace st)).1 with
    | none =>
      simp only
      by_cases hl : (Lexer.nextToken (Lexer.skipWhitespace st)).2.rest.length =
          (Lexer.skipWhitespace st).rest.length
      · rw [if_pos hl]
        simp
      rw [if_neg hl]
      have hgt : ¬ acc.length > 1000 := by omega
      rw [if_neg hgt]
      apply ih _ acc hacc
      omega
    | some t =>
      simp only
      by_cases hc : (t :: acc).length > 1000
      · rw [if_pos hc]
        simp
      rw [if_neg hc]
      apply ih _ (t :: acc)
      · simp at hc ⊢
        omega
      · simp at hc ⊢
        omega

theorem tokenizeAux_length_le :
    ∀ (fuel : Nat) (st : LexState) (acc : List DSLToken)
      (res : List DSLToken × LexState),
      acc.length ≤ 1000 →
      tokenizeAux fuel st acc = some res →
      res.1.length ≤ 1001 := by
  intro fuel
  induction fuel with
  | zero =>
    intro st acc res h1 h2
    simp [tokenizeAux] at h2
  | succ fuel ih =>
    intro st acc res hacc heq
    unfold tokenizeAux at heq
    by_cases he : st.rest.isEmpty = true
    · rw [if_pos he] at heq
      cases heq
      simp
      omega
    rw [if_neg he] at heq
    by_cases he1 : (Lexer.skipWhitespace st).rest.isEmpty = true
    · rw [if_pos he1] at heq
      cases heq
      simp
      omega
    rw [if_neg he1] at heq
    simp only at heq
    cases ht : (Lexer.nextToken (Lexer.skipWhitespace st)).1 with
    | none =>
      rw [ht] at heq
      simp only at heq
      by_cases hl : (Lexer.nextToken (Lexer.skipWhitespace st)).2.rest.length =
          (Lexer.skipWhitespace st).rest.length
      · rw [if_pos hl] at heq
        cases heq
        simp
        omega
      rw [if_neg hl] at heq
      have hgt : ¬ acc.length > 1000 := by omega
      rw [if_neg hgt] at heq
      exact ih _ acc res hacc heq
    | some t =>
      rw [ht] at heq
      simp only at heq
      by_cases hc : (t :: acc).length > 1000
      · rw [if_pos hc] at heq
        cases heq
        simp
        omega
      · rw [if_neg hc] at heq
        apply ih _ (t :: acc) res _ heq
        simp at hc ⊢
        omega

/-- C9: for every input text, `tokenize` terminates (the explicit fuel of
the embedding, `length + 1002`, provably never runs out, mirroring the
termination of the JS `while` loop), the returned token sequence always
ends with an end-of-input token, and its length is bounded by the hard cap
(at most 1001 emitted tokens plus the final `EOF`); unrecognized
characters are skipped rather than failing the pass, as the `"@@@"`
evaluation shows (three unknown characters produce just the `EOF` token at
the advanced position). -/
theorem C9_tokenize_total_eof_capped :
    (∀ input : String,
        (tokenizeAux (input.toList.length + 1002) ⟨input.toList, 1, 1⟩ []).isSome ∧
        (∃ t, (Lexer.tokenize input).getLast? = some t ∧
          t.type = TokenType.EOF) ∧
        (Lexer.tokenize input).length ≤ 1002) ∧
      Lexer.tokenize "@@@" = [⟨TokenType.EOF, "", 1, 4⟩] := by
  constructor
  · intro input
    have hsome : (tokenizeAux (input.toList.length + 1002)
        ⟨input.toList, 1, 1⟩ []).isSome := by
      apply tokenizeAux_isSome _ _ [] (by simp)
      simp
    refine ⟨hsome, ?_, ?_⟩
    · unfold Lexer.tokenize
      cases hres : tokenizeAux (input.toList.length + 1002)
          ⟨input.toList, 1, 1⟩ [] with
      | none => simp
      | some p =>
        refine ⟨⟨TokenType.EOF, "", p.2.line, p.2.col⟩, ?_, rfl⟩
        simp
    · unfold Lexer.tokenize
      cases hres : tokenizeAux (input.toList.length + 1002)
          ⟨input.toList, 1, 1⟩ [] with
      | none => simp
      | some p =>
        have hlen := tokenizeAux_length_le _ _ [] p (by simp) hres
        simp
        omega
  · rfl

set_option maxRecDepth 20000 in
/-- C8: refuted — the claim says a bare `true`/`false` keyword emits
exactly one boolean token and the position moves past it so the rest of
the input is still tokenized. In the code the boolean branch of
`nextToken` returns its token without ever advancing, so on input
`"true;"` the loop re-reads the keyword until the defensive cap: the
output holds 1001 boolean tokens and the `;` is never tokenized. The
`truefoo` half of the claim does hold: `"truefoo;"` lexes as a single
property token followed by the semicolon and `EOF`. -/
theorem C8_boolean_branch_no_advance :
    ((Lexer.tokenize "true;").filter
        (fun t => t.type = TokenType.BOOLEAN)).length = 1001 ∧
    ((Lexer.tokenize "true;").filter
        (fun t => t.type = TokenType.SEMICOLON)).length = 0 ∧
    Lexer.tokenize "truefoo;" = [⟨TokenType.PROPERTY, "truefoo", 1, 1⟩,
      ⟨TokenType.SEMICOLON, ";", 1, 9⟩, ⟨TokenType.EOF, "", 1, 9⟩] :=
  ⟨rfl, rfl, rfl⟩
